import Mathlib

/-!
Verification development for the hecto-rust text-buffer core
(`src/row.rs`, `src/document.rs`).

Strings are modelled as lists of Unicode scalar values (`Lean`'s `Char`).
Rust's `unicode_segmentation::graphemes(true)` (extended grapheme clusters,
UAX #29) is modelled for the character universe actually exercised by the
buffer: ASCII text, the CR/LF controls, and the combining diacritical marks
U+0300–U+036F.  In this fragment the UAX #29 boundary rules reduce to a
pairwise rule: CR×LF does not break (GB3), a break follows any control
(GB4/GB5), and no break occurs before an Extend character (GB9).  Every
other pair of characters breaks (GB999).  All segmentation-dependent
behaviour of the source is expressed through this model.

Rust byte indices (`str::find`, `grapheme_indices`) are modelled by UTF-8
byte lengths computed from scalar values; byte-level substring search of
valid UTF-8 coincides with scalar-level search because UTF-8 is
self-synchronizing.
-/

namespace Hecto

/-- A Rust `String` / `&str`, modelled as its list of Unicode scalar values. -/
abbrev Str := List Char

/-- Combining diacritical marks U+0300–U+036F: the `Extend` class of the
modelled fragment of UAX #29. -/
def isExtend (c : Char) : Bool := 0x300 ≤ c.toNat && c.toNat ≤ 0x36F

/-- The CR and LF controls. -/
def isCtrl (c : Char) : Bool := c = '\r' || c = '\n'

/-- `joins a b` holds when there is no extended-grapheme-cluster boundary
between adjacent characters `a` and `b`:  CR×LF stay together, and an
Extend character attaches to any preceding non-control character. -/
def joins (a b : Char) : Bool := (a = '\r' && b = '\n') || (isExtend b && !isCtrl a)

/-- Extended grapheme cluster segmentation of a string, as performed by
`unicode_segmentation::UnicodeSegmentation::graphemes(true)` on the
modelled character universe. -/
def graphemes : Str → List Str
  | [] => []
  | [a] => [[a]]
  | a :: b :: rest =>
    if joins a b then
      match graphemes (b :: rest) with
      | g :: gs => (a :: g) :: gs
      | [] => [[a]]
    else
      [a] :: graphemes (b :: rest)

/-- Number of extended grapheme clusters of a string
(`.graphemes(true).count()`). -/
def gcount (s : Str) : Nat := (graphemes s).length

/-- Length in bytes of the UTF-8 encoding of one scalar value. -/
def utf8Len (c : Char) : Nat :=
  if c.toNat < 0x80 then 1
  else if c.toNat < 0x800 then 2
  else if c.toNat < 0x10000 then 3
  else 4

/-- Length in bytes of the UTF-8 encoding of a string (Rust `str::len`). -/
def byteLen (s : Str) : Nat := (s.map utf8Len).sum

/-- `isPre q s` holds when `q` is an initial segment of `s`
(substring occurrence anchored at the front). -/
def isPre : Str → Str → Bool
  | [], _ => true
  | _ :: _, [] => false
  | a :: as, b :: bs => a = b && isPre as bs

/-- Scalar index of the leftmost occurrence of `q` in `s`
(models Rust `str::find`, which returns the byte offset of that
occurrence; the byte offset is recovered with `byteLen ∘ List.take`). -/
def findSub (q : Str) : Str → Option Nat
  | [] => if isPre q [] then some 0 else none
  | a :: rest =>
    if isPre q (a :: rest) then some 0
    else (findSub q rest).map (· + 1)

/-- Scalar index of the rightmost occurrence of `q` in `s`
(models Rust `str::rfind`). -/
def rfindSub (q : Str) : Str → Option Nat
  | [] => if isPre q [] then some 0 else none
  | a :: rest =>
    match rfindSub q rest with
    | some i => some (i + 1)
    | none => if isPre q (a :: rest) then some 0 else none

/-- Byte offset of scalar position `i` of `s` (offset of the first `i`
scalars' UTF-8 encoding). -/
def byteIdx (s : Str) (i : Nat) : Nat := byteLen (s.take i)

/-- Byte offsets at which the grapheme clusters of `s` start, in order:
the offsets produced by Rust `grapheme_indices(true)`. -/
def clusterByteStarts (s : Str) : List Nat :=
  (List.range (gcount s)).map (fun g => byteLen (((graphemes s).take g).flatten))

/-- The search-direction selector (`crate::SearchDirection`).
Modelled from the spec: the type itself lives outside `src/`; per the spec
it is a two-valued enum, `Forward` or `Backward`. -/
inductive SearchDirection
  | Forward
  | Backward
deriving DecidableEq, Repr

/-- A cursor position (`crate::Position`).
Modelled from the spec: the type itself lives outside `src/`; per the spec
it is a pair of zero-based unsigned coordinates, `x` a grapheme column and
`y` a row index. -/
structure Position where
  x : Nat
  y : Nat
deriving DecidableEq, Repr

/-- A single style annotation (`crate::highlighting::Type`).
Modelled from the spec: the highlighting module lives outside `src/`; the
annotation values are opaque display tags, modelled as naturals. -/
abbrev HlType := Nat

/-- One line of the buffer (`Row` of `src/row.rs`): the stored text, the
per-grapheme style annotations, and the cached grapheme count `len`. -/
structure Row where
  string : Str
  highlighting : List HlType
  len : Nat
deriving DecidableEq, Repr

/-- `Row::default()`: empty text, empty annotations, zero length. -/
def Row.default : Row := ⟨[], [], 0⟩

/-- `Row::update_len`: recompute the cached grapheme count from the text. -/
def Row.update_len (r : Row) : Row := { r with len := gcount r.string }

/-- `Row::from(&str)`: build a row from existing text. -/
def Row.fromStr (s : Str) : Row := Row.update_len ⟨s, [], 0⟩

/-- `Row::highlight`.
Modelled from the spec: the method body lives outside `src/`; per the spec
the external Highlighter produces one style annotation per grapheme
cluster of the row's text and never changes the text or the length.  The
file-type options and optional search word only influence which tags are
produced, so they are elided from the model. -/
def Row.highlight (r : Row) : Row :=
  { r with highlighting := (graphemes r.string).map (fun _ => 0) }

/-- `Row::insert(at, c)` of `src/row.rs` lines 64–75. -/
def Row.insert (r : Row) (i : Nat) (c : Char) : Row :=
  if i ≥ r.len then
    Row.update_len { r with string := r.string ++ [c] }
  else
    let result := ((graphemes r.string).take i).flatten
    let remainder := ((graphemes r.string).drop i).flatten
    Row.update_len { r with string := result ++ [c] ++ remainder }

/-- `Row::delete(at)` of `src/row.rs` lines 77–87. -/
def Row.delete (r : Row) (i : Nat) : Row :=
  if i ≥ r.len then r
  else
    let result := ((graphemes r.string).take i).flatten
    let remainder := ((graphemes r.string).drop (i + 1)).flatten
    Row.update_len { r with string := result ++ remainder }

/-- `Row::append(&new)` of `src/row.rs` lines 89–92. -/
def Row.append (r new : Row) : Row :=
  Row.update_len { r with string := r.string ++ new.string }

/-- `Row::split(at)` of `src/row.rs` lines 95–116: the first component is
the mutated `self` (prefix clusters, annotations untouched), the second is
the returned suffix row with fresh empty annotations. -/
def Row.split (r : Row) (i : Nat) : Row × Row :=
  let g := graphemes r.string
  ({ r with string := (g.take i).flatten, len := (g.take i).length },
   { string := (g.drop i).flatten, highlighting := [], len := (g.drop i).length })

/-- The escape sequence printed by
`termion::color::Fg(color::Rgb(220, 163, 163))`. -/
def colorOn : Str := ("\x1b[38;2;220;163;163m").toList

/-- The escape sequence printed by `termion::color::Fg(color::Reset)`. -/
def colorReset : Str := ("\x1b[39m").toList

/-- `Row::render(start, end)` of `src/row.rs` lines 28–51, exactly as
written: `end` is clamped to the byte length of the stored text, `start`
to `end`; each selected grapheme contributes one space if it starts with a
tab, a colour-bracketed digit if it starts with an ASCII digit, and
nothing otherwise. -/
def Row.render (r : Row) (start e : Nat) : Str :=
  let e2 := min e (byteLen r.string)
  let s2 := min start e2
  (((graphemes r.string).drop s2).take (e2 - s2)).foldl
    (fun acc g =>
      match g.head? with
      | some c =>
        if c = '\t' then acc ++ (" ").toList
        else if c.isDigit then acc ++ colorOn ++ [c] ++ colorReset
        else acc
      | none => acc) []

/-- `Row::find(query, at, direction)` of `src/row.rs` lines 123–159:
select the searched grapheme range, take its text, find the byte offset
of the leftmost (Forward) or rightmost (Backward) occurrence of the
query, then map that byte offset back to a grapheme index by scanning the
substring's grapheme-cluster start offsets. -/
def Row.find (r : Row) (q : Str) (i : Nat) (dir : SearchDirection) : Option Nat :=
  if i > r.len then none
  else
    let start := if dir = SearchDirection.Forward then i else 0
    let e := if dir = SearchDirection.Forward then r.len else i
    let substring := (((graphemes r.string).drop start).take (e - start)).flatten
    let mbi :=
      if dir = SearchDirection.Forward then
        (findSub q substring).map (byteIdx substring)
      else
        (rfindSub q substring).map (byteIdx substring)
    match mbi with
    | some b =>
      match (clusterByteStarts substring).findIdx? (fun o => o = b) with
      | some g => some (start + g)
      | none => none
    | none => none

/-- A file type (`crate::FileType`).
Modelled from the spec: the type lives outside `src/`; per the spec it is
a configuration value looked up from the file path, opaque to the core
beyond being passed through, so it is modelled by its name. -/
structure FileType where
  name : Str
deriving DecidableEq, Repr

/-- `FileType::from(filename)`.
Modelled from the spec: file-type detection is an external lookup from
the path; its value is opaque to the core, so the model keeps the path it
was derived from. -/
def fileTypeFrom (filename : Str) : FileType := ⟨filename⟩

/-- `FileType::default()`, used by `Document::default()`.
Modelled from the spec: an empty (no-filetype) configuration. -/
def FileType.default : FileType := ⟨[]⟩

/-- The text buffer (`Document` of `src/document.rs`): the ordered rows,
the optional file path, the dirty flag and the detected file type. -/
structure Document where
  rows : List Row
  file_name : Option Str
  dirty : Bool
  file_type : FileType
deriving DecidableEq, Repr

/-- `Document::default()`: no rows, no path, clean, default file type. -/
def Document.default : Document := ⟨[], none, false, FileType.default⟩

/-- Rust `str::lines`: split on `'\n'`, dropping a final `'\r'` of each
segment, with no segment after a trailing terminator. -/
def splitLines (s : Str) : List Str :=
  if s = [] then []
  else
    let segs := s.splitOn '\n'
    let segs := if s.getLast? = some '\n' then segs.dropLast else segs
    segs.map (fun seg => if seg.getLast? = some '\r' then seg.dropLast else seg)

/-- `Document::open(filename)` of `src/document.rs` lines 21–36, applied
to the file contents that `fs::read_to_string` returned (the I/O itself
is outside the model; a read failure propagates and builds no Document):
one highlighted row per line, the given path, clean. -/
def Document.openDoc (filename contents : Str) : Document :=
  { rows := (splitLines contents).map (fun v => (Row.fromStr v).highlight),
    file_name := some filename,
    dirty := false,
    file_type := fileTypeFrom filename }

/-- `Document::len` (`rows.len()`). -/
def Document.len (d : Document) : Nat := d.rows.length

/-- `Document::insert_newline(at)` of `src/document.rs` lines 57–72,
exactly as written: the first guard returns when `at.y` equals the row
count, making the second (identical) guard's append branch unreachable;
otherwise the addressed row is split at `at.x`, both halves are
re-highlighted, and the suffix is inserted right after it. -/
def Document.insert_newline (d : Document) (p : Position) : Document :=
  if p.y = d.rows.length then d
  else if p.y = d.rows.length then { d with rows := d.rows ++ [Row.default] }
  else
    match d.rows.get? p.y with
    | some current_row =>
      let pair := current_row.split p.x
      let cur := pair.1.highlight
      let new_row := pair.2.highlight
      { d with rows := (d.rows.set p.y cur).insertIdx (p.y + 1) new_row }
    | none => d

/-- `Document::insert(at, c)` of `src/document.rs` lines 77–96. -/
def Document.insert (d : Document) (p : Position) (c : Char) : Document :=
  if p.y > d.len then d
  else
    let d := { d with dirty := true }
    if c = '\n' then d.insert_newline p
    else if p.y = d.len then
      { d with rows := d.rows ++ [((Row.default.insert 0 c)).highlight] }
    else
      match d.rows.get? p.y with
      | some row => { d with rows := d.rows.set p.y ((row.insert p.x c).highlight) }
      | none => d

/-- `Document::delete(at)` of `src/document.rs` lines 101–117. -/
def Document.delete (d : Document) (p : Position) : Document :=
  let len := d.len
  if p.y ≥ len then d
  else
    let d := { d with dirty := true }
    match d.rows.get? p.y with
    | none => d
    | some row =>
      if p.x = row.len ∧ p.y < len - 1 then
        match d.rows.get? (p.y + 1) with
        | some next_row =>
          { d with rows := ((d.rows.eraseIdx (p.y + 1)).set p.y ((row.append next_row).highlight)) }
        | none => d
      else
        { d with rows := d.rows.set p.y ((row.delete p.x).highlight) }

/-- `Document::save` of `src/document.rs` lines 122–134, on the success
path (the file-system writes are outside the model; per the spec an I/O
failure propagates before `dirty` is cleared): with no path set it does
nothing; with a path it re-detects the file type, re-highlights every row
and clears the dirty flag. -/
def Document.save (d : Document) : Document :=
  match d.file_name with
  | none => d
  | some name =>
    { d with file_type := fileTypeFrom name,
             rows := d.rows.map Row.highlight,
             dirty := false }

/-- `Document::highlight(word)` of `src/document.rs` lines 136–140. -/
def Document.highlightAll (d : Document) : Document :=
  { d with rows := d.rows.map Row.highlight }

/-- The body of the `for _ in start..end` loop of `Document::find`
(`src/document.rs` lines 164–180), with the remaining iteration count as
fuel: search the current row from the current column; on failure move
forward to the next row at column 0, or backward to the previous row at
a column equal to that row's length. -/
def Document.findLoop (d : Document) (q : Str) (dir : SearchDirection) :
    Nat → Position → Option Position
  | 0, _ => none
  | n + 1, pos =>
    match d.rows.get? pos.y with
    | none => none
    | some row =>
      match row.find q pos.x dir with
      | some x => some ⟨x, pos.y⟩
      | none =>
        if dir = SearchDirection.Forward then
          Document.findLoop d q dir n ⟨0, pos.y + 1⟩
        else
          Document.findLoop d q dir n
            ⟨((d.rows.getD (pos.y - 1) Row.default)).len, pos.y - 1⟩

/-- `Document::find(query, at, direction)` of `src/document.rs` lines
148–182. -/
def Document.find (d : Document) (q : Str) (p : Position)
    (dir : SearchDirection) : Option Position :=
  if p.y ≥ d.rows.length then none
  else
    let start := if dir = SearchDirection.Forward then p.y else 0
    let e := if dir = SearchDirection.Forward then d.rows.length else p.y + 1
    Document.findLoop d q dir (e - start) ⟨p.x, p.y⟩

/-- Last character of a string, with a default for the empty string;
structured for smooth induction. -/
def lastD : Str → Char → Char
  | [], d => d
  | [a], _ => a
  | _ :: b :: rest, d => lastD (b :: rest) d

theorem lastD_cons_cons (a b : Char) (rest : Str) (d : Char) :
    lastD (a :: b :: rest) d = lastD (b :: rest) d := rfl

/-- Unfolding of `graphemes` on two or more characters, once the
segmentation of the tail is known. -/
theorem graphemes_cons_cons (a b : Char) (rest g : Str) (gs : List Str)
    (hg : graphemes (b :: rest) = g :: gs) :
    graphemes (a :: b :: rest) =
      if joins a b then (a :: g) :: gs else [a] :: g :: gs := by
  simp only [graphemes]
  rw [hg]

/-- The first grapheme cluster of a nonempty string starts with its first
character. -/
theorem graphemes_cons_ex (a : Char) (rest : Str) :
    ∃ g gs, graphemes (a :: rest) = (a :: g) :: gs := by
  induction rest generalizing a with
  | nil => exact ⟨[], [], rfl⟩
  | cons b rest ih =>
    obtain ⟨g, gs, hg⟩ := ih b
    by_cases h : joins a b
    · exact ⟨b :: g, gs, by rw [graphemes_cons_cons a b rest (b :: g) gs hg, if_pos h]⟩
    · exact ⟨[], (b :: g) :: gs,
        by rw [graphemes_cons_cons a b rest (b :: g) gs hg, if_neg h]⟩

/-- Segmentation is a partition: concatenating the clusters restores the
string. -/
theorem flatten_graphemes (s : Str) : (graphemes s).flatten = s := by
  induction s with
  | nil => rfl
  | cons a rest ih =>
    cases rest with
    | nil => rfl
    | cons b rest' =>
      obtain ⟨g, gs, hg⟩ := graphemes_cons_ex b rest'
      rw [graphemes_cons_cons a b rest' (b :: g) gs hg]
      rw [hg] at ih
      simp only [List.flatten_cons, List.cons_append] at ih
      have ih' : g ++ gs.flatten = rest' := by
        injection ih
      by_cases h : joins a b
      · rw [if_pos h]
        simp only [List.flatten_cons, List.cons_append, ih']
      · rw [if_neg h]
        simp only [List.flatten_cons, List.cons_append, List.nil_append, ih']

theorem graphemes_eq_nil_iff (s : Str) : graphemes s = [] ↔ s = [] := by
  constructor
  · intro h
    have := flatten_graphemes s
    rw [h] at this
    simpa using this.symm
  · rintro rfl; rfl

/-- Every grapheme cluster is nonempty. -/
theorem mem_graphemes_ne_nil {s g : Str} (hm : g ∈ graphemes s) : g ≠ [] := by
  induction s with
  | nil => simp [graphemes] at hm
  | cons a rest ih =>
    cases rest with
    | nil =>
      simp only [graphemes, List.mem_singleton] at hm
      simp [hm]
    | cons b rest' =>
      obtain ⟨g', gs, hg⟩ := graphemes_cons_ex b rest'
      rw [graphemes_cons_cons a b rest' (b :: g') gs hg] at hm
      rw [hg] at ih
      by_cases h : joins a b
      · rw [if_pos h] at hm
        rcases List.mem_cons.mp hm with h1 | h1
        · simp [h1]
        · exact ih (List.mem_cons_of_mem _ h1)
      · rw [if_neg h] at hm
        rcases List.mem_cons.mp hm with h1 | h1
        · simp [h1]
        · exact ih h1

/-- Cluster-count recurrence: a leading character adds a cluster exactly
when it does not join the following one. -/
theorem gcount_cons_cons (a b : Char) (rest : Str) :
    gcount (a :: b :: rest) =
      if joins a b then gcount (b :: rest) else gcount (b :: rest) + 1 := by
  obtain ⟨g, gs, hg⟩ := graphemes_cons_ex b rest
  unfold gcount
  rw [graphemes_cons_cons a b rest (b :: g) gs hg, hg]
  by_cases h : joins a b <;> simp [h]

/-- The tail clusters of a segmentation are themselves the segmentation of
their concatenation. -/
theorem graphemes_tail {s : Str} {g : Str} {gs : List Str}
    (h : graphemes s = g :: gs) : graphemes gs.flatten = gs := by
  induction s generalizing g gs with
  | nil => simp [graphemes] at h
  | cons a rest ih =>
    cases rest with
    | nil =>
      simp only [graphemes] at h
      cases h
      rfl
    | cons b rest' =>
      obtain ⟨g', gs', hg⟩ := graphemes_cons_ex b rest'
      rw [graphemes_cons_cons a b rest' (b :: g') gs' hg] at h
      by_cases hj : joins a b
      · rw [if_pos hj] at h
        cases h
        exact ih hg
      · rw [if_neg hj] at h
        cases h
        have hfl : ((b :: g') :: gs').flatten = b :: rest' := by
          rw [← hg]; exact flatten_graphemes (b :: rest')
        rw [hfl]
        exact hg

/-- Structure of a segmentation's first cluster: it re-segments to itself
alone, and a break separates it from the remaining characters. -/
theorem graphemes_first {s : Str} {g : Str} {gs : List Str}
    (h : graphemes s = g :: gs) :
    graphemes g = [g] ∧
      (∀ c cs, gs.flatten = c :: cs → joins (lastD g 'a') c = false) := by
  induction s generalizing g gs with
  | nil => simp [graphemes] at h
  | cons a rest ih =>
    cases rest with
    | nil =>
      simp only [graphemes] at h
      cases h
      exact ⟨rfl, by intro c cs hc; simp at hc⟩
    | cons b rest' =>
      obtain ⟨g', gs', hg⟩ := graphemes_cons_ex b rest'
      rw [graphemes_cons_cons a b rest' (b :: g') gs' hg] at h
      by_cases hj : joins a b
      · rw [if_pos hj] at h
        cases h
        obtain ⟨ih1, ih2⟩ := ih hg
        constructor
        · cases g' with
          | nil => simp [graphemes, hj]
          | cons c' cs' =>
            rw [graphemes_cons_cons a b (c' :: cs') (b :: c' :: cs') []
              (by simpa using ih1), if_pos hj]
        · intro c cs hc
          rw [lastD_cons_cons]
          exact ih2 c cs hc
      · rw [if_neg hj] at h
        cases h
        refine ⟨rfl, ?_⟩
        intro c cs hc
        simp only [List.flatten_cons, List.cons_append] at hc
        injection hc with h1 h2
        subst h1
        simpa [lastD] using hj

/-- Appending at a cluster break concatenates the segmentations. -/
theorem graphemes_append (s₁ : Str) (b : Char) (s₂ : Str) (h₁ : s₁ ≠ [])
    (hbr : joins (lastD s₁ 'a') b = false) :
    graphemes (s₁ ++ b :: s₂) = graphemes s₁ ++ graphemes (b :: s₂) := by
  induction s₁ with
  | nil => exact absurd rfl h₁
  | cons a rest ih =>
    cases rest with
    | nil =>
      obtain ⟨g, gs, hg⟩ := graphemes_cons_ex b s₂
      simp only [List.cons_append, List.nil_append]
      rw [graphemes_cons_cons a b s₂ (b :: g) gs hg, hg]
      simp only [lastD] at hbr
      rw [if_neg (by simp [hbr])]
      rfl
    | cons a₂ rest' =>
      rw [lastD_cons_cons] at hbr
      have ih' := ih (by simp) hbr
      obtain ⟨g, gs, hg⟩ := graphemes_cons_ex a₂ rest'
      obtain ⟨g2, gs2, hg2⟩ := graphemes_cons_ex a₂ (rest' ++ b :: s₂)
      have hcat : (a₂ :: rest') ++ b :: s₂ = a₂ :: (rest' ++ b :: s₂) := rfl
      rw [hcat] at ih'
      rw [hg2, hg] at ih'
      have hgg : (a₂ :: g2) :: gs2 = (a₂ :: g) :: (gs ++ graphemes (b :: s₂)) := by
        rw [ih']; rfl
      simp only [List.cons_append]
      rw [graphemes_cons_cons a a₂ (rest' ++ b :: s₂) (a₂ :: g2) gs2 hg2,
        graphemes_cons_cons a a₂ rest' (a₂ :: g) gs hg]
      cases hgg
      by_cases hj : joins a a₂ <;> simp [hj]

/-- Dropping whole clusters leaves a string that re-segments to exactly
the dropped-to clusters. -/
theorem graphemes_drop_flatten (i : Nat) (s : Str) :
    graphemes ((graphemes s).drop i).flatten = (graphemes s).drop i := by
  induction i generalizing s with
  | zero => simp [flatten_graphemes]
  | succ i ih =>
    cases hgs : graphemes s with
    | nil => simp [graphemes]
    | cons g gs =>
      have ht := graphemes_tail hgs
      have := ih gs.flatten
      rw [ht] at this
      simpa using this

/-- Taking whole clusters leaves a string that re-segments to exactly the
taken clusters. -/
theorem graphemes_take_flatten (i : Nat) (s : Str) :
    graphemes ((graphemes s).take i).flatten = (graphemes s).take i := by
  induction i generalizing s with
  | zero => simp [graphemes]
  | succ i ih =>
    cases hgs : graphemes s with
    | nil => simp [graphemes]
    | cons g gs =>
      have ht := graphemes_tail hgs
      have hrec := ih gs.flatten
      rw [ht] at hrec
      have hfirst := graphemes_first hgs
      have hgne : g ≠ [] :=
        mem_graphemes_ne_nil (by rw [hgs]; exact List.mem_cons_self _ _)
      simp only [List.take_succ_cons, List.flatten_cons]
      cases htk : (gs.take i).flatten with
      | nil =>
        have hnil : gs.take i = [] := by
          cases h2 : gs.take i with
          | nil => rfl
          | cons t ts =>
            have htne : t ≠ [] :=
              mem_graphemes_ne_nil (by
                rw [ht]; exact List.mem_of_mem_take (h2 ▸ List.mem_cons_self t ts))
            rw [h2] at htk
            simp only [List.flatten_cons, List.append_eq_nil] at htk
            exact absurd htk.1 htne
        rw [hnil]
        simpa using hfirst.1
      | cons c cs =>
        have hflat : gs.flatten = c :: (cs ++ (gs.drop i).flatten) := by
          conv_lhs => rw [← List.take_append_drop i gs]
          rw [List.flatten_append, htk]
          rfl
        have hbr : joins (lastD g 'a') c = false :=
          hfirst.2 c (cs ++ (gs.drop i).flatten) hflat
        rw [graphemes_append g c cs hgne hbr, hfirst.1, ← htk, hrec]
        rfl

/-- Splitting the clusters and flattening both halves restores the string. -/
theorem take_flatten_append_drop_flatten (i : Nat) (s : Str) :
    ((graphemes s).take i).flatten ++ ((graphemes s).drop i).flatten = s := by
  rw [← List.flatten_append, List.take_append_drop]
  exact flatten_graphemes s

theorem gcount_take_flatten (i : Nat) (s : Str) :
    gcount ((graphemes s).take i).flatten = ((graphemes s).take i).length := by
  unfold gcount
  rw [graphemes_take_flatten]

theorem gcount_drop_flatten (i : Nat) (s : Str) :
    gcount ((graphemes s).drop i).flatten = ((graphemes s).drop i).length := by
  unfold gcount
  rw [graphemes_drop_flatten]

/-- A row operation, for stating the cached-length invariant over
arbitrary call sequences.  `splitL`/`splitR` continue with the mutated
prefix row respectively the returned suffix row of `Row::split`. -/
inductive RowOp
  | ins (i : Nat) (c : Char)
  | del (i : Nat)
  | splitL (i : Nat)
  | splitR (i : Nat)
  | app (other : Row)

def applyRowOp (r : Row) : RowOp → Row
  | RowOp.ins i c => r.insert i c
  | RowOp.del i => r.delete i
  | RowOp.splitL i => (r.split i).1
  | RowOp.splitR i => (r.split i).2
  | RowOp.app o => r.append o

def applyRowOps (r : Row) : List RowOp → Row
  | [] => r
  | op :: ops => applyRowOps (applyRowOp r op) ops

/-- Every single row operation preserves the cached-length invariant. -/
theorem applyRowOp_len (r : Row) (hr : r.len = gcount r.string) (op : RowOp) :
    (applyRowOp r op).len = gcount (applyRowOp r op).string := by
  cases op with
  | ins i c =>
    show (r.insert i c).len = gcount (r.insert i c).string
    unfold Row.insert
    split <;> rfl
  | del i =>
    show (r.delete i).len = gcount (r.delete i).string
    unfold Row.delete
    split
    · exact hr
    · rfl
  | splitL i =>
    show ((graphemes r.string).take i).length =
      gcount ((graphemes r.string).take i).flatten
    rw [gcount_take_flatten]
  | splitR i =>
    show ((graphemes r.string).drop i).length =
      gcount ((graphemes r.string).drop i).flatten
    rw [gcount_drop_flatten]
  | app o => rfl

/-- C1: for every row satisfying the cached-length invariant, after any
finite sequence of `insert`, `delete`, `split` (either resulting row) and
`append` calls, the cached `len` returned by `length()` equals the number
of grapheme clusters of the stored text. -/
theorem row_len_invariant (r : Row) (ops : List RowOp)
    (hr : r.len = gcount r.string) :
    (applyRowOps r ops).len = gcount (applyRowOps r ops).string := by
  induction ops generalizing r with
  | nil => exact hr
  | cons op ops ih => exact ih (applyRowOp r op) (applyRowOp_len r hr op)

/-- Witness for C1 at a concrete row and call sequence. -/
theorem row_len_invariant_witness :
    (applyRowOps (Row.fromStr ('a' :: 'b' :: []))
        [RowOp.ins 1 'x', RowOp.del 0, RowOp.splitL 1,
         RowOp.app (Row.fromStr ('q' :: []))]).len =
      gcount (applyRowOps (Row.fromStr ('a' :: 'b' :: []))
        [RowOp.ins 1 'x', RowOp.del 0, RowOp.splitL 1,
         RowOp.app (Row.fromStr ('q' :: []))]).string :=
  row_len_invariant _ _ (by decide)

/-- C5: for every row and every `at` in `[0, length()]`, `split(at)`
followed by `append` of the returned suffix onto the mutated prefix makes
the stored text byte-for-byte equal to the original (scalar equality of
valid UTF-8 is byte equality), with `len` the original grapheme count. -/
theorem split_append_reconstructs (r : Row) (i : Nat) (hi : i ≤ r.len) :
    (((r.split i).1).append (r.split i).2).string = r.string ∧
      (((r.split i).1).append (r.split i).2).len = gcount r.string := by
  have hs : (((r.split i).1).append (r.split i).2).string = r.string := by
    show ((graphemes r.string).take i).flatten ++
        ((graphemes r.string).drop i).flatten = r.string
    exact take_flatten_append_drop_flatten i r.string
  refine ⟨hs, ?_⟩
  show gcount ((((r.split i).1).append (r.split i).2).string) = gcount r.string
  rw [hs]

/-- Witness for C5 at a concrete row and split point. -/
theorem split_append_reconstructs_witness :
    2 ≤ (Row.fromStr ('h' :: 'i' :: '!' :: [])).len ∧
      ((((Row.fromStr ('h' :: 'i' :: '!' :: [])).split 2).1).append
          ((Row.fromStr ('h' :: 'i' :: '!' :: [])).split 2).2).string =
        (Row.fromStr ('h' :: 'i' :: '!' :: [])).string :=
  ⟨by decide, (split_append_reconstructs (Row.fromStr ('h' :: 'i' :: '!' :: [])) 2
    (by decide)).1⟩

/-- C3 (divergence witness): inserting the newline character at
`pos.y = rows.count()` appends nothing — the duplicated guard in
`insert_newline` returns before the `push` branch can run — while still
setting the dirty flag.  Shown on the empty document, where the claim
demands a new empty row. -/
theorem insert_newline_at_end_appends_nothing :
    (Document.default.insert ⟨0, 0⟩ '\n').rows = [] ∧
      (Document.default.insert ⟨0, 0⟩ '\n').dirty = true := by
  constructor <;> rfl

/-- C2 (divergence witness): `render` re-emits only tab and ASCII-digit
graphemes.  On the row `"a"` the full-range render is empty instead of
`"a"`; a digit is colour-bracketed and a tab becomes one space exactly as
claimed. -/
theorem render_drops_plain_graphemes :
    (Row.fromStr ('a' :: [])).render 0 1 = [] ∧
      (Row.fromStr ('1' :: [])).render 0 1 = colorOn ++ '1' :: colorReset ∧
      (Row.fromStr ('\t' :: [])).render 0 1 = ' ' :: [] := by
  refine ⟨rfl, ?_, rfl⟩
  decide

theorem map_eraseIdx' {α β : Type} (f : α → β) (l : List α) (n : Nat) :
    (l.eraseIdx n).map f = (l.map f).eraseIdx n := by
  induction l generalizing n with
  | nil => rfl
  | cons a t ih =>
    cases n with
    | zero => rfl
    | succ n => simp [List.eraseIdx_cons_succ, ih]

theorem set_self' {α : Type} (l : List α) (n : Nat) (a : α)
    (h : l.get? n = some a) : l.set n a = l := by
  induction l generalizing n with
  | nil => simp at h
  | cons x t ih =>
    cases n with
    | zero =>
      simp only [List.get?_cons_zero, Option.some.injEq] at h
      simp [h]
    | succ n =>
      simp only [List.get?_cons_succ] at h
      simp [ih n h]

theorem set_eraseIdx_comm {α : Type} (l : List α) (y : Nat) (v : α) :
    (l.eraseIdx (y + 1)).set y v = (l.set y v).eraseIdx (y + 1) := by
  induction l generalizing y with
  | nil => rfl
  | cons a t ih =>
    cases y with
    | zero => rfl
    | succ y =>
      simp only [List.eraseIdx_cons_succ, List.set_cons_succ]
      rw [ih]

/-- C7: for a position addressing an existing row, `delete` merges with
the next row exactly when the column equals the row's length and the row
is not the last one (removing row `y+1` and appending its text onto row
`y`); otherwise it deletes the single grapheme at the addressed column of
that row. -/
theorem delete_join_or_single (d : Document) (p : Position) (row : Row)
    (hy : d.rows.get? p.y = some row) :
    ((p.x = row.len ∧ p.y < d.rows.length - 1) →
      ∃ nxt, d.rows.get? (p.y + 1) = some nxt ∧
        (d.delete p).rows.map Row.string =
          ((d.rows.map Row.string).set p.y (row.string ++ nxt.string)).eraseIdx
            (p.y + 1))
    ∧ (¬ (p.x = row.len ∧ p.y < d.rows.length - 1) →
      (d.delete p).rows.map Row.string =
        (d.rows.map Row.string).set p.y ((row.delete p.x).string)) := by
  have hylt : p.y < d.rows.length := (List.get?_eq_some.mp hy).1
  constructor
  · rintro ⟨hx, hyl⟩
    have hy1 : p.y + 1 < d.rows.length := by omega
    obtain ⟨nxt, hnxt⟩ : ∃ nxt, d.rows.get? (p.y + 1) = some nxt := by
      rw [List.get?_eq_get hy1]
      exact ⟨_, rfl⟩
    refine ⟨nxt, hnxt, ?_⟩
    unfold Document.delete
    rw [if_neg (by show ¬ p.y ≥ d.len; exact Nat.not_le.mpr hylt)]
    simp only [hy, hnxt]
    rw [if_pos ⟨hx, hyl⟩]
    show ((d.rows.eraseIdx (p.y + 1)).set p.y ((row.append nxt).highlight)).map
        Row.string = _
    rw [List.map_set, map_eraseIdx', set_eraseIdx_comm]
    rfl
  · intro hcond
    unfold Document.delete
    rw [if_neg (by show ¬ p.y ≥ d.len; exact Nat.not_le.mpr hylt)]
    simp only [hy]
    rw [if_neg (show ¬ (p.x = row.len ∧ p.y < d.len - 1) from hcond)]
    show (( d.rows.set p.y ((row.delete p.x).highlight)).map Row.string) = _
    rw [List.map_set]
    rfl

/-- Witness for C7: the spec scenario, rows `["a", "bc", "def"]` with
`delete(Position{x:1, y:0})` taking the merge branch. -/
theorem delete_join_or_single_witness :
    ∃ nxt,
      (Document.mk [Row.fromStr ('a' :: []), Row.fromStr ('b' :: 'c' :: []),
          Row.fromStr ('d' :: 'e' :: 'f' :: [])] none false
          FileType.default).rows.get? 1 = some nxt ∧
      ((Document.mk [Row.fromStr ('a' :: []), Row.fromStr ('b' :: 'c' :: []),
          Row.fromStr ('d' :: 'e' :: 'f' :: [])] none false
          FileType.default).delete ⟨1, 0⟩).rows.map Row.string =
        (((Document.mk [Row.fromStr ('a' :: []), Row.fromStr ('b' :: 'c' :: []),
          Row.fromStr ('d' :: 'e' :: 'f' :: [])] none false
          FileType.default).rows.map Row.string).set 0
            ((Row.fromStr ('a' :: [])).string ++ nxt.string)).eraseIdx 1 :=
  (delete_join_or_single
    (Document.mk [Row.fromStr ('a' :: []), Row.fromStr ('b' :: 'c' :: []),
      Row.fromStr ('d' :: 'e' :: 'f' :: [])] none false FileType.default)
    ⟨1, 0⟩ (Row.fromStr ('a' :: [])) (by decide)).1 (by constructor <;> decide)

/-- C8: out-of-range rows make `insert`/`delete` silent no-ops that
mutate nothing; an out-of-range column makes `insert` append at the end
of the addressed row and makes `delete` leave every row's text
unchanged. -/
theorem out_of_range_policy :
    (∀ (d : Document) (p : Position) (c : Char),
      p.y > d.rows.length → d.insert p c = d)
    ∧ (∀ (d : Document) (p : Position),
      p.y ≥ d.rows.length → d.delete p = d)
    ∧ (∀ (d : Document) (p : Position) (c : Char) (row : Row),
      d.rows.get? p.y = some row → p.x ≥ row.len → c ≠ '\n' →
      ∃ r2, (d.insert p c).rows.get? p.y = some r2 ∧
        r2.string = row.string ++ [c])
    ∧ (∀ (d : Document) (p : Position) (row : Row),
      d.rows.get? p.y = some row → p.x > row.len →
      (d.delete p).rows.map Row.string = d.rows.map Row.string) := by
  refine ⟨?_, ?_, ?_, ?_⟩
  · intro d p c h
    unfold Document.insert
    rw [if_pos (show p.y > d.len from h)]
  · intro d p h
    unfold Document.delete
    rw [if_pos (show p.y ≥ d.len from h)]
  · intro d p c row hy hx hc
    have hylt : p.y < d.rows.length := (List.get?_eq_some.mp hy).1
    unfold Document.insert
    rw [if_neg (by show ¬ p.y > d.len; exact Nat.not_lt.mpr (Nat.le_of_lt hylt))]
    rw [if_neg hc, if_neg (by show ¬ p.y = d.len; exact Nat.ne_of_lt hylt)]
    simp only [hy]
    refine ⟨(row.insert p.x c).highlight, ?_, ?_⟩
    · show (d.rows.set p.y ((row.insert p.x c).highlight)).get? p.y = _
      rw [List.get?_set_eq]
      · simp [hylt]
    · show (row.insert p.x c).string = _
      unfold Row.insert
      rw [if_pos hx]
      rfl
  · intro d p row hy hx
    have hylt : p.y < d.rows.length := (List.get?_eq_some.mp hy).1
    unfold Document.delete
    rw [if_neg (by show ¬ p.y ≥ d.len; exact Nat.not_le.mpr hylt)]
    simp only [hy]
    rw [if_neg (by rintro ⟨h1, _⟩; omega)]
    show ((d.rows.set p.y ((row.delete p.x).highlight)).map Row.string) = _
    rw [List.map_set]
    have hrd : (row.delete p.x).string = row.string := by
      unfold Row.delete
      rw [if_pos (Nat.le_of_lt hx)]
    show (d.rows.map Row.string).set p.y ((row.delete p.x).highlight).string = _
    have : ((row.delete p.x).highlight).string = row.string := hrd
    rw [this]
    exact set_self' _ _ _ (by rw [List.get?_map, hy]; rfl)

/-- Witness for C8 at concrete documents and rows. -/
theorem out_of_range_policy_witness :
    ((Document.mk [Row.fromStr ('a' :: [])] none false FileType.default).insert
        ⟨0, 5⟩ 'z' =
      Document.mk [Row.fromStr ('a' :: [])] none false FileType.default)
    ∧ ((Document.mk [Row.fromStr ('a' :: [])] none false FileType.default).delete
        ⟨0, 1⟩ =
      Document.mk [Row.fromStr ('a' :: [])] none false FileType.default)
    ∧ (∃ r2, ((Document.mk [Row.fromStr ('a' :: [])] none false
          FileType.default).insert ⟨7, 0⟩ 'z').rows.get? 0 = some r2 ∧
        r2.string = (Row.fromStr ('a' :: [])).string ++ ['z'])
    ∧ (((Document.mk [Row.fromStr ('a' :: [])] none false
          FileType.default).delete ⟨7, 0⟩).rows.map Row.string =
        (Document.mk [Row.fromStr ('a' :: [])] none false
          FileType.default).rows.map Row.string) :=
  ⟨out_of_range_policy.1 _ ⟨0, 5⟩ 'z' (by decide),
   out_of_range_policy.2.1 _ ⟨0, 1⟩ (by decide),
   out_of_range_policy.2.2.1 _ ⟨7, 0⟩ 'z' (Row.fromStr ('a' :: []))
     (by decide) (by decide) (by decide),
   out_of_range_policy.2.2.2 _ ⟨7, 0⟩ (Row.fromStr ('a' :: []))
     (by decide) (by decide)⟩

/-- C9: the dirty flag follows the claimed two-state machine.  It is
false on construction and after `open`; every applied (in-range) `insert`
or `delete` sets it true; a successful `save` with a path clears it and a
`save` without a path succeeds changing nothing; ignored out-of-range
`insert`/`delete` and re-highlighting leave it untouched. -/
theorem dirty_flag_machine :
    (Document.default.dirty = false)
    ∧ (∀ fn contents, (Document.openDoc fn contents).dirty = false)
    ∧ (∀ (d : Document) (p : Position) (c : Char),
        p.y ≤ d.rows.length → (d.insert p c).dirty = true)
    ∧ (∀ (d : Document) (p : Position),
        p.y < d.rows.length → (d.delete p).dirty = true)
    ∧ (∀ d : Document, d.file_name = none → d.save = d)
    ∧ (∀ (d : Document) fn, d.file_name = some fn → (d.save).dirty = false)
    ∧ (∀ (d : Document) (p : Position) (c : Char),
        p.y > d.rows.length → (d.insert p c).dirty = d.dirty)
    ∧ (∀ (d : Document) (p : Position),
        p.y ≥ d.rows.length → (d.delete p).dirty = d.dirty)
    ∧ (∀ d : Document, (d.highlightAll).dirty = d.dirty) := by
  refine ⟨rfl, fun fn contents => rfl, ?_, ?_, ?_, ?_, ?_, ?_, fun d => rfl⟩
  · intro d p c h
    unfold Document.insert
    rw [if_neg (show ¬ p.y > d.len from Nat.not_lt.mpr h)]
    by_cases hc : c = '\n'
    · rw [if_pos hc]
      unfold Document.insert_newline
      dsimp only
      split
      · rfl
      · split <;> rfl
    · rw [if_neg hc]
      dsimp only
      split
      · rfl
      · split <;> rfl
  · intro d p h
    unfold Document.delete
    rw [if_neg (show ¬ p.y ≥ d.len from Nat.not_le.mpr h)]
    dsimp only
    split
    · rfl
    · split
      · split <;> rfl
      · rfl
  · intro d h
    unfold Document.save
    rw [h]
  · intro d fn h
    unfold Document.save
    rw [h]
  · intro d p c h
    unfold Document.insert
    rw [if_pos (show p.y > d.len from h)]
  · intro d p h
    unfold Document.delete
    rw [if_pos (show p.y ≥ d.len from h)]

/-- Witness for C9 at concrete documents. -/
theorem dirty_flag_machine_witness :
    ((Document.mk [Row.fromStr ('a' :: [])] none false FileType.default).insert
        ⟨0, 0⟩ 'z').dirty = true
    ∧ ((Document.mk [Row.fromStr ('a' :: [])] none true
        FileType.default).delete ⟨0, 0⟩).dirty = true
    ∧ (Document.mk [] none true FileType.default).save
        = Document.mk [] none true FileType.default
    ∧ ((Document.mk [] (some ('f' :: [])) true FileType.default).save).dirty
        = false
    ∧ ((Document.mk [] none false FileType.default).insert ⟨0, 3⟩ 'z').dirty
        = false
    ∧ ((Document.mk [] none false FileType.default).delete ⟨0, 3⟩).dirty
        = false :=
  ⟨dirty_flag_machine.2.2.1 _ ⟨0, 0⟩ 'z' (by decide),
   dirty_flag_machine.2.2.2.1 _ ⟨0, 0⟩ (by decide),
   dirty_flag_machine.2.2.2.2.1 _ (by decide),
   dirty_flag_machine.2.2.2.2.2.1 _ ('f' :: []) (by decide),
   dirty_flag_machine.2.2.2.2.2.2.1 _ ⟨0, 3⟩ 'z' (by decide),
   dirty_flag_machine.2.2.2.2.2.2.2.1 _ ⟨0, 3⟩ (by decide)⟩

theorem gcount_cons_le (a : Char) (s : Str) : gcount (a :: s) ≤ gcount s + 1 := by
  cases s with
  | nil => exact Nat.le_refl 1
  | cons b r =>
    rw [gcount_cons_cons]
    by_cases h : joins a b
    · rw [if_pos h]; omega
    · rw [if_neg h]

theorem gcount_le_cons (a : Char) (s : Str) : gcount s ≤ gcount (a :: s) := by
  cases s with
  | nil => exact Nat.zero_le 1
  | cons b r =>
    rw [gcount_cons_cons]
    by_cases h : joins a b
    · rw [if_pos h]
    · rw [if_neg h]; omega

theorem gcount_append_le (s₁ s₂ : Str) :
    gcount (s₁ ++ s₂) ≤ gcount s₁ + gcount s₂ := by
  induction s₁ with
  | nil => simp [gcount, graphemes]
  | cons a r ih =>
    cases r with
    | nil =>
      cases s₂ with
      | nil => simp [gcount, graphemes]
      | cons b t =>
        show gcount (a :: b :: t) ≤ gcount [a] + gcount (b :: t)
        have := gcount_cons_le a (b :: t)
        have h1 : gcount [a] = 1 := rfl
        omega
    | cons a₂ r' =>
      have hcat : (a :: a₂ :: r') ++ s₂ = a :: a₂ :: (r' ++ s₂) := rfl
      rw [hcat, gcount_cons_cons, gcount_cons_cons]
      have hcat2 : (a₂ :: r') ++ s₂ = a₂ :: (r' ++ s₂) := rfl
      rw [hcat2] at ih
      by_cases h : joins a a₂
      · rw [if_pos h, if_pos h]; omega
      · rw [if_neg h, if_neg h]; omega

theorem gcount_append_join_lt (s₁ : Str) (b : Char) (s₂ : Str) (h₁ : s₁ ≠ [])
    (hj : joins (lastD s₁ 'a') b = true) :
    gcount (s₁ ++ b :: s₂) < gcount s₁ + gcount (b :: s₂) := by
  induction s₁ with
  | nil => exact absurd rfl h₁
  | cons a r ih =>
    cases r with
    | nil =>
      show gcount (a :: b :: s₂) < gcount [a] + gcount (b :: s₂)
      rw [gcount_cons_cons, if_pos (by simpa [lastD] using hj)]
      have h1 : gcount [a] = 1 := rfl
      omega
    | cons a₂ r' =>
      rw [lastD_cons_cons] at hj
      have ih' := ih (by simp) hj
      have hcat : (a :: a₂ :: r') ++ b :: s₂ = a :: a₂ :: (r' ++ b :: s₂) := rfl
      rw [hcat, gcount_cons_cons, gcount_cons_cons]
      have hcat2 : (a₂ :: r') ++ b :: s₂ = a₂ :: (r' ++ b :: s₂) := rfl
      rw [hcat2] at ih'
      by_cases h : joins a a₂
      · rw [if_pos h, if_pos h]; omega
      · rw [if_neg h, if_neg h]; omega

/-- A leading character that does not join the following one is its own
cluster. -/
theorem graphemes_cons_break (c : Char) (S : Str)
    (h : S = [] ∨ joins c (S.headD 'a') = false) :
    graphemes (c :: S) = [c] :: graphemes S := by
  cases S with
  | nil => rfl
  | cons b t =>
    obtain ⟨g, gs, hg⟩ := graphemes_cons_ex b t
    rw [graphemes_cons_cons c b t (b :: g) gs hg, hg]
    rcases h with h | h
    · cases h
    · rw [if_neg (by simpa using h)]

/-- C4 (amended): for every row with a valid cache, every column
`i ≤ length()` and every character whose insertion increases the
grapheme count by exactly one (i.e. the character forms a cluster of its
own at that point), `insert(i, c)` followed by `delete(i)` restores the
row — text, cached length and annotations — exactly. -/
theorem insert_delete_roundtrip (r : Row) (i : Nat) (c : Char)
    (hr : r.len = gcount r.string) (hi : i ≤ r.len)
    (hone : (r.insert i c).len = r.len + 1) :
    (r.insert i c).delete i = r := by
  by_cases hcase : i ≥ r.len
  · -- append-at-end branch of `Row::insert`
    have hins : r.insert i c =
        ⟨r.string ++ [c], r.highlighting, gcount (r.string ++ [c])⟩ := by
      unfold Row.insert
      rw [if_pos hcase]
      rfl
    have hcount : gcount (r.string ++ [c]) = r.len + 1 := by
      have := hone
      rw [hins] at this
      exact this
    have hseg : graphemes (r.string ++ [c]) = graphemes r.string ++ [[c]] := by
      cases hs : r.string with
      | nil => simp [graphemes]
      | cons s0 s' =>
        by_cases hj : joins (lastD r.string 'a') c
        · exfalso
          have := gcount_append_join_lt r.string c [] (by rw [hs]; simp) hj
          have h1 : gcount [c] = 1 := rfl
          rw [hcount, hr] at this
          omega
        · rw [← hs]
          have := graphemes_append r.string c [] (by rw [hs]; simp)
            (by simpa using hj)
          simpa [graphemes] using this
    have hEq : i = r.len := Nat.le_antisymm hi hcase
    rw [hins]
    unfold Row.delete
    rw [if_neg (by
      show ¬ i ≥ gcount (r.string ++ [c])
      rw [hcount, hEq]
      omega)]
    have hlenG : (graphemes r.string).length = i := by
      rw [hEq, hr]; rfl
    have htake : (graphemes (r.string ++ [c])).take i = graphemes r.string := by
      rw [hseg]
      exact List.take_left' hlenG
    have hdrop : (graphemes (r.string ++ [c])).drop (i + 1) = [] := by
      apply List.drop_eq_nil_of_le
      rw [hseg]
      simp [hlenG]
    show Row.update_len ⟨((graphemes (r.string ++ [c])).take i).flatten ++
      ((graphemes (r.string ++ [c])).drop (i + 1)).flatten, r.highlighting,
      gcount (r.string ++ [c])⟩ = r
    rw [htake, hdrop, flatten_graphemes]
    show (⟨r.string ++ [], r.highlighting, gcount (r.string ++ [])⟩ : Row) = r
    simp only [List.append_nil]
    rw [← hr]
  · -- middle-insertion branch of `Row::insert`
    push_neg at hcase
    have hn1 : 1 ≤ r.len := Nat.lt_of_le_of_lt (Nat.zero_le i) hcase
    set G := graphemes r.string with hG
    set P := (G.take i).flatten with hP
    set S := (G.drop i).flatten with hS
    have hPS : P ++ S = r.string := take_flatten_append_drop_flatten i r.string
    have hsegP : graphemes P = G.take i := graphemes_take_flatten i r.string
    have hsegS : graphemes S = G.drop i := graphemes_drop_flatten i r.string
    have hGlen : G.length = r.len := by rw [hr]; rfl
    have hcntP : gcount P = i := by
      show (graphemes P).length = i
      rw [hsegP, List.length_take]
      omega
    have hcntS : gcount S = r.len - i := by
      show (graphemes S).length = r.len - i
      rw [hsegS, List.length_drop]
      omega
    have hSne : S ≠ [] := by
      intro hnil
      have : graphemes S = [] := by rw [hnil]; rfl
      rw [hsegS] at this
      have := congrArg List.length this
      simp only [List.length_drop, List.length_nil] at this
      omega
    have hins : r.insert i c =
        ⟨P ++ [c] ++ S, r.highlighting, gcount (P ++ [c] ++ S)⟩ := by
      unfold Row.insert
      rw [if_neg (by omega)]
      rfl
    have hcount : gcount (P ++ c :: S) = r.len + 1 := by
      have := hone
      rw [hins] at this
      show gcount (P ++ c :: S) = r.len + 1
      have hassoc : P ++ [c] ++ S = P ++ c :: S := by simp
      rw [← hassoc]
      exact this
    obtain ⟨Sh, St, hScons⟩ : ∃ Sh St, S = Sh :: St := by
      cases hq : S with
      | nil => exact absurd hq hSne
      | cons Sh St => exact ⟨Sh, St, rfl⟩
    have hj2 : joins c Sh = false := by
      by_contra hj
      have hj' : joins c Sh = true := by
        cases h : joins c Sh
        · exact absurd h hj
        · rfl
      have hcS : gcount (c :: S) = gcount S := by
        rw [hScons, gcount_cons_cons, if_pos hj']
      have hle := gcount_append_le P (c :: S)
      rw [hcount, hcS, hcntP, hcntS] at hle
      omega
    have hsegM : graphemes (P ++ c :: S) = G.take i ++ [c] :: G.drop i := by
      have hcS : graphemes (c :: S) = [c] :: graphemes S :=
        graphemes_cons_break c S (Or.inr (by rw [hScons]; simpa using hj2))
      cases hPnil : P with
      | nil =>
        have hTi : G.take i = [] := by
          rw [← hsegP, hPnil]
          rfl
        rw [hTi]
        simpa [hsegS] using hcS
      | cons P0 P' =>
        rw [← hPnil]
        by_cases hj1 : joins (lastD P 'a') c
        · exfalso
          have := gcount_append_join_lt P c S (by rw [hPnil]; simp) hj1
          have hcle := gcount_cons_le c S
          rw [hcount, hcntP] at this
          omega
        · rw [graphemes_append P c S (by rw [hPnil]; simp)
            (by simpa using hj1), hcS, hsegP, hsegS]
    have hlenTi : (G.take i).length = i := by
      rw [List.length_take]; omega
    rw [hins]
    unfold Row.delete
    rw [if_neg (by
      show ¬ i ≥ gcount (P ++ [c] ++ S)
      have hassoc : P ++ [c] ++ S = P ++ c :: S := by simp
      rw [hassoc, hcount]
      omega)]
    have hsegM' : graphemes (P ++ [c] ++ S) = G.take i ++ [c] :: G.drop i := by
      have hassoc : P ++ [c] ++ S = P ++ c :: S := by simp
      rw [hassoc, hsegM]
    have htake : (graphemes (P ++ [c] ++ S)).take i = G.take i := by
      rw [hsegM']
      exact List.take_left' hlenTi
    have hdrop : (graphemes (P ++ [c] ++ S)).drop (i + 1) = G.drop i := by
      rw [hsegM']
      have : G.take i ++ [c] :: G.drop i = (G.take i ++ [[c]]) ++ G.drop i := by
        simp
      rw [this]
      have hlen2 : (G.take i ++ [[c]]).length = i + 1 := by
        simp [hlenTi]
      exact List.drop_left' hlen2
    show Row.update_len ⟨((graphemes (P ++ [c] ++ S)).take i).flatten ++
      ((graphemes (P ++ [c] ++ S)).drop (i + 1)).flatten, r.highlighting, _⟩ = r
    rw [htake, hdrop]
    show (⟨P ++ S, r.highlighting, gcount (P ++ S)⟩ : Row) = r
    rw [hPS, ← hr]

/-- C4 (counterexample): inserting the combining acute accent U+0301 at
the end of the row `"a"` merges it into the final cluster, after which
`delete` at the same index cannot remove it: the text is not restored,
although the index was in the claimed range. -/
theorem insert_delete_not_roundtrip :
    1 ≤ (Row.fromStr ('a' :: [])).len ∧
      (((Row.fromStr ('a' :: [])).insert 1 (Char.ofNat 769)).delete 1).string ≠
        (Row.fromStr ('a' :: [])).string := by
  exact ⟨by decide, by decide⟩

/-- Witness for the amended C4 at a concrete row, index and character. -/
theorem insert_delete_roundtrip_witness :
    ((Row.fromStr ('a' :: 'b' :: [])).insert 1 'x').delete 1 =
      Row.fromStr ('a' :: 'b' :: []) :=
  insert_delete_roundtrip (Row.fromStr ('a' :: 'b' :: [])) 1 'x'
    (by decide) (by decide) (by decide)

theorem isPre_iff_ex (q s : Str) : isPre q s = true ↔ ∃ t, s = q ++ t := by
  induction q generalizing s with
  | nil => simp [isPre]
  | cons a as ih =>
    cases s with
    | nil =>
      simp only [isPre, List.cons_append]
      constructor
      · intro h; cases h
      · rintro ⟨t, ht⟩; cases ht
    | cons b bs =>
      simp only [isPre, Bool.and_eq_true, decide_eq_true_eq, ih, List.cons_append]
      constructor
      · rintro ⟨rfl, t, rfl⟩; exact ⟨t, rfl⟩
      · rintro ⟨t, ht⟩
        injection ht with h1 h2
        exact ⟨h1.symm, t, h2⟩

theorem findSub_le (q s : Str) (k : Nat) (h : findSub q s = some k) :
    k ≤ s.length := by
  induction s generalizing k with
  | nil =>
    unfold findSub at h
    by_cases hp : isPre q [] = true
    · rw [if_pos hp] at h; cases h; exact Nat.le_refl 0
    · rw [if_neg hp] at h; cases h
  | cons a rest ih =>
    unfold findSub at h
    by_cases hp : isPre q (a :: rest) = true
    · rw [if_pos hp] at h; cases h; exact Nat.zero_le _
    · rw [if_neg hp] at h
      cases hr : findSub q rest with
      | none => rw [hr] at h; cases h
      | some j =>
        rw [hr] at h
        have h' : some (j + 1) = some k := h
        cases h'
        exact Nat.succ_le_succ (ih j hr)

theorem findSub_some (q s : Str) (k : Nat) (h : findSub q s = some k) :
    isPre q (s.drop k) = true ∧ ∀ j, j < k → isPre q (s.drop j) = false := by
  induction s generalizing k with
  | nil =>
    unfold findSub at h
    by_cases hp : isPre q [] = true
    · rw [if_pos hp] at h; cases h
      exact ⟨hp, by omega⟩
    · rw [if_neg hp] at h; cases h
  | cons a rest ih =>
    unfold findSub at h
    by_cases hp : isPre q (a :: rest) = true
    · rw [if_pos hp] at h; cases h
      exact ⟨hp, by omega⟩
    · rw [if_neg hp] at h
      cases hr : findSub q rest with
      | none => rw [hr] at h; cases h
      | some j =>
        rw [hr] at h
        have h' : some (j + 1) = some k := h
        cases h'
        obtain ⟨h1, h2⟩ := ih j hr
        refine ⟨h1, ?_⟩
        intro j' hj'
        cases j' with
        | zero =>
          simpa using (Bool.not_eq_true _).mp hp
        | succ j' => exact h2 j' (by omega)

theorem findSub_none (q s : Str) (h : findSub q s = none) :
    ∀ j, isPre q (s.drop j) = false := by
  induction s with
  | nil =>
    unfold findSub at h
    by_cases hp : isPre q [] = true
    · rw [if_pos hp] at h; cases h
    · intro j
      rw [List.drop_nil]
      exact (Bool.not_eq_true _).mp hp
  | cons a rest ih =>
    unfold findSub at h
    by_cases hp : isPre q (a :: rest) = true
    · rw [if_pos hp] at h; cases h
    · rw [if_neg hp] at h
      cases hr : findSub q rest with
      | some j =>
        rw [hr] at h
        have h' : some (j + 1) = none := h
        cases h'
      | none =>
        intro j
        cases j with
        | zero => exact (Bool.not_eq_true _).mp hp
        | succ j => exact ih hr j

theorem rfindSub_le (q s : Str) (k : Nat) (h : rfindSub q s = some k) :
    k ≤ s.length := by
  induction s generalizing k with
  | nil =>
    unfold rfindSub at h
    by_cases hp : isPre q [] = true
    · rw [if_pos hp] at h; cases h; exact Nat.le_refl 0
    · rw [if_neg hp] at h; cases h
  | cons a rest ih =>
    unfold rfindSub at h
    cases hr : rfindSub q rest with
    | some j =>
      rw [hr] at h
      have h' : some (j + 1) = some k := h
      cases h'
      exact Nat.succ_le_succ (ih j hr)
    | none =>
      rw [hr] at h
      have h' : (if isPre q (a :: rest) = true then some 0 else none) = some k := h
      by_cases hp : isPre q (a :: rest) = true
      · rw [if_pos hp] at h'; cases h'; exact Nat.zero_le _
      · rw [if_neg hp] at h'; cases h'

theorem rfindSub_none (q s : Str) (h : rfindSub q s = none) :
    ∀ j, isPre q (s.drop j) = false := by
  induction s with
  | nil =>
    unfold rfindSub at h
    by_cases hp : isPre q [] = true
    · rw [if_pos hp] at h; cases h
    · intro j
      rw [List.drop_nil]
      exact (Bool.not_eq_true _).mp hp
  | cons a rest ih =>
    unfold rfindSub at h
    cases hr : rfindSub q rest with
    | some j =>
      rw [hr] at h
      have h' : some (j + 1) = none := h
      cases h'
    | none =>
      rw [hr] at h
      have h' : (if isPre q (a :: rest) = true then some 0 else none) = none := h
      by_cases hp : isPre q (a :: rest) = true
      · rw [if_pos hp] at h'; cases h'
      · intro j
        cases j with
        | zero => exact (Bool.not_eq_true _).mp hp
        | succ j => exact ih hr j

theorem rfindSub_some (q s : Str) (k : Nat) (h : rfindSub q s = some k) :
    isPre q (s.drop k) = true ∧
      ∀ j, k < j → j ≤ s.length → isPre q (s.drop j) = false := by
  induction s generalizing k with
  | nil =>
    unfold rfindSub at h
    by_cases hp : isPre q [] = true
    · rw [if_pos hp] at h; cases h
      refine ⟨hp, ?_⟩
      intro j hj hjl
      simp only [List.length_nil] at hjl
      omega
    · rw [if_neg hp] at h; cases h
  | cons a rest ih =>
    unfold rfindSub at h
    cases hr : rfindSub q rest with
    | some j =>
      rw [hr] at h
      have h' : some (j + 1) = some k := h
      cases h'
      obtain ⟨h1, h2⟩ := ih j hr
      refine ⟨h1, ?_⟩
      intro j' hj' hj'len
      cases j' with
      | zero => omega
      | succ j' =>
        exact h2 j' (by omega) (by simpa using hj'len)
    | none =>
      rw [hr] at h
      have h' : (if isPre q (a :: rest) = true then some 0 else none) = some k := h
      by_cases hp : isPre q (a :: rest) = true
      · rw [if_pos hp] at h'; cases h'
        refine ⟨hp, ?_⟩
        intro j hj hjlen
        cases j with
        | zero => omega
        | succ j => exact rfindSub_none q rest hr j
      · rw [if_neg hp] at h'; cases h'

theorem utf8Len_pos (c : Char) : 0 < utf8Len c := by
  unfold utf8Len
  split
  · omega
  split
  · omega
  split <;> omega

theorem byteLen_append (x y : Str) : byteLen (x ++ y) = byteLen x + byteLen y := by
  unfold byteLen
  rw [List.map_append, List.sum_append]

theorem byteLen_pos (x : Str) (hx : x ≠ []) : 0 < byteLen x := by
  cases x with
  | nil => exact absurd rfl hx
  | cons a t =>
    show 0 < byteLen ([a] ++ t)
    rw [byteLen_append]
    have := utf8Len_pos a
    have h1 : byteLen [a] = utf8Len a := by
      unfold byteLen
      simp
    omega

theorem byteIdx_lt (s : Str) (i j : Nat) (hij : i < j) (hj : j ≤ s.length) :
    byteIdx s i < byteIdx s j := by
  unfold byteIdx
  have hsplit : s.take j = s.take i ++ (s.drop i).take (j - i) := by
    rw [← List.take_add]
    congr 1
    omega
  rw [hsplit, byteLen_append]
  have hne : (s.drop i).take (j - i) ≠ [] := by
    have hlen : ((s.drop i).take (j - i)).length = j - i := by
      rw [List.length_take, List.length_drop]
      omega
    intro hcon
    rw [hcon] at hlen
    simp at hlen
    omega
  have := byteLen_pos _ hne
  omega

theorem byteIdx_inj (s : Str) (i j : Nat) (hi : i ≤ s.length)
    (hj : j ≤ s.length) (h : byteIdx s i = byteIdx s j) : i = j := by
  rcases Nat.lt_trichotomy i j with hlt | heq | hgt
  · exact absurd h (Nat.ne_of_lt (byteIdx_lt s i j hlt hj))
  · exact heq
  · exact absurd h.symm (Nat.ne_of_lt (byteIdx_lt s j i hgt hi))

/-- Scalar position at which grapheme cluster `g` of `s` starts. -/
def cpos (s : Str) (g : Nat) : Nat := (((graphemes s).take g).flatten).length

theorem cpos_zero (s : Str) : cpos s 0 = 0 := rfl

theorem cpos_le_length (s : Str) (g : Nat) : cpos s g ≤ s.length := by
  unfold cpos
  have := take_flatten_append_drop_flatten g s
  have hlen := congrArg List.length this
  rw [List.length_append] at hlen
  omega

theorem take_flatten_eq_take (s : Str) (g : Nat) :
    ((graphemes s).take g).flatten = s.take (cpos s g) := by
  have hsplit := take_flatten_append_drop_flatten g s
  have := @List.take_left' Char (((graphemes s).take g).flatten)
    (((graphemes s).drop g).flatten) (cpos s g) rfl
  rw [hsplit] at this
  exact this.symm

theorem drop_flatten_eq_drop (s : Str) (g : Nat) :
    ((graphemes s).drop g).flatten = s.drop (cpos s g) := by
  have hsplit := take_flatten_append_drop_flatten g s
  have := @List.drop_left' Char (((graphemes s).take g).flatten)
    (((graphemes s).drop g).flatten) (cpos s g) rfl
  rw [hsplit] at this
  exact this.symm

theorem cpos_succ (s : Str) (g : Nat) (hg : g < gcount s) :
    ∃ cl, (graphemes s).get? g = some cl ∧ cl ≠ [] ∧
      cpos s (g + 1) = cpos s g + cl.length := by
  obtain ⟨cl, hcl⟩ : ∃ cl, (graphemes s).get? g = some cl := by
    rw [List.get?_eq_get hg]
    exact ⟨_, rfl⟩
  have hmem : cl ∈ graphemes s := List.get?_mem hcl
  refine ⟨cl, hcl, mem_graphemes_ne_nil hmem, ?_⟩
  unfold cpos
  rw [List.take_succ]
  have hg2 : (graphemes s)[g]? = some cl := by
    rw [← List.get?_eq_getElem?]
    exact hcl
  rw [hg2]
  simp [List.flatten_append]

theorem cpos_lt_succ (s : Str) (g : Nat) (hg : g < gcount s) :
    cpos s g < cpos s (g + 1) := by
  obtain ⟨cl, _, hne, heq⟩ := cpos_succ s g hg
  have : 0 < cl.length := List.length_pos.mpr hne
  omega

theorem cpos_strictMono (s : Str) (a b : Nat) (hab : a < b) (hb : b ≤ gcount s) :
    cpos s a < cpos s b := by
  induction b with
  | zero => omega
  | succ b ih =>
    have hb' : b < gcount s := by omega
    rcases Nat.lt_or_ge a b with h | h
    · exact Nat.lt_trans (ih h (by omega)) (cpos_lt_succ s b hb')
    · have : a = b := by omega
      subst this
      exact cpos_lt_succ s a hb'

theorem clusterByteStarts_get? (s : Str) (g : Nat) (hg : g < gcount s) :
    (clusterByteStarts s).get? g = some (byteIdx s (cpos s g)) := by
  unfold clusterByteStarts
  rw [List.get?_map]
  rw [List.get?_range hg]
  show some (byteLen (((graphemes s).take g).flatten)) = _
  rw [take_flatten_eq_take]
  rfl

theorem clusterByteStarts_pairwise (s : Str) :
    (clusterByteStarts s).Pairwise (· < ·) := by
  unfold clusterByteStarts
  rw [List.pairwise_map]
  have hrange : (List.range (gcount s)).Pairwise
      (fun a b => a < b ∧ b < gcount s) := by
    have h1 := List.pairwise_lt_range (gcount s)
    refine List.Pairwise.imp_of_mem ?_ h1
    intro a b ha hb hab
    exact ⟨hab, List.mem_range.mp hb⟩
  refine List.Pairwise.imp ?_ hrange
  intro a b ⟨hab, hb⟩
  have hstep := cpos_strictMono s a b hab (Nat.le_of_lt hb)
  have hb' := cpos_le_length s b
  calc byteLen (((graphemes s).take a).flatten)
      = byteIdx s (cpos s a) := by rw [take_flatten_eq_take]; rfl
    _ < byteIdx s (cpos s b) := byteIdx_lt s _ _ hstep hb'
    _ = byteLen (((graphemes s).take b).flatten) := by
        rw [take_flatten_eq_take]; rfl

theorem findIdx?_pairwise_eq_some (l : List Nat) (b : Nat) (g : Nat)
    (hp : l.Pairwise (· < ·)) (hg : l.get? g = some b) :
    l.findIdx? (fun o => o = b) = some g := by
  induction l generalizing g with
  | nil => simp at hg
  | cons x t ih =>
    cases g with
    | zero =>
      simp only [List.get?_cons_zero, Option.some.injEq] at hg
      subst hg
      rw [List.findIdx?_cons]
      simp
    | succ g =>
      simp only [List.get?_cons_succ] at hg
      have hb : b ∈ t := List.get?_mem hg
      have hxb : x < b := (List.pairwise_cons.mp hp).1 b hb
      rw [List.findIdx?_cons]
      rw [if_neg (by simp; omega)]
      rw [List.findIdx?_succ]
      rw [ih g (List.pairwise_cons.mp hp).2 hg]
      rfl

theorem findIdx?_eq_none_of_not_mem (l : List Nat) (b : Nat) (hnb : b ∉ l) :
    l.findIdx? (fun o => o = b) = none := by
  induction l with
  | nil => rfl
  | cons x t ih =>
    rw [List.findIdx?_cons]
    rw [if_neg (by
      simp only [decide_eq_true_eq]
      intro h
      exact hnb (h ▸ List.mem_cons_self x t))]
    rw [List.findIdx?_succ]
    rw [ih (fun hm => hnb (List.mem_cons_of_mem _ hm))]
    rfl

theorem mem_clusterByteStarts (s : Str) (b : Nat) :
    b ∈ clusterByteStarts s ↔ ∃ g, g < gcount s ∧ byteIdx s (cpos s g) = b := by
  unfold clusterByteStarts
  rw [List.mem_map]
  constructor
  · rintro ⟨g, hg, hb⟩
    refine ⟨g, List.mem_range.mp hg, ?_⟩
    rw [← hb, take_flatten_eq_take]
    rfl
  · rintro ⟨g, hg, hb⟩
    refine ⟨g, List.mem_range.mpr hg, ?_⟩
    rw [← hb, take_flatten_eq_take]
    rfl

/-- The grapheme substring searched by `Row::find`: clusters `[at, len)`
for a forward search, clusters `[0, at)` for a backward one. -/
def searchSlice (r : Row) (i : Nat) (dir : SearchDirection) : Str :=
  let start := if dir = SearchDirection.Forward then i else 0
  let e := if dir = SearchDirection.Forward then r.len else i
  (((graphemes r.string).drop start).take (e - start)).flatten

/-- C10: for an in-range `at`, `Row::find` computes the byte offset of
the byte-wise leftmost (Forward) or rightmost (Backward) occurrence of
the query in the searched substring — conjunct four re-states that
extremal property — and maps it back through the substring's
grapheme-cluster start offsets: it answers `some (start + g)` exactly
when the occurrence starts at cluster start `g`, and `none` when the
occurrence starts mid-cluster, regardless of any boundary-aligned
occurrence elsewhere in the range. -/
theorem row_find_boundary_alignment (r : Row) (q : Str) (i : Nat)
    (dir : SearchDirection) (hi : i ≤ r.len) :
    ((if dir = SearchDirection.Forward then findSub q (searchSlice r i dir)
        else rfindSub q (searchSlice r i dir)) = none →
      r.find q i dir = none)
    ∧ (∀ k g,
        (if dir = SearchDirection.Forward then findSub q (searchSlice r i dir)
          else rfindSub q (searchSlice r i dir)) = some k →
        g < gcount (searchSlice r i dir) → cpos (searchSlice r i dir) g = k →
        r.find q i dir =
          some ((if dir = SearchDirection.Forward then i else 0) + g))
    ∧ (∀ k,
        (if dir = SearchDirection.Forward then findSub q (searchSlice r i dir)
          else rfindSub q (searchSlice r i dir)) = some k →
        (∀ g, g < gcount (searchSlice r i dir) →
          cpos (searchSlice r i dir) g ≠ k) →
        r.find q i dir = none)
    ∧ (∀ k,
        (if dir = SearchDirection.Forward then findSub q (searchSlice r i dir)
          else rfindSub q (searchSlice r i dir)) = some k →
        isPre q ((searchSlice r i dir).drop k) = true ∧
          (dir = SearchDirection.Forward →
            ∀ j, j < k → isPre q ((searchSlice r i dir).drop j) = false) ∧
          (dir = SearchDirection.Backward →
            ∀ j, k < j → j ≤ (searchSlice r i dir).length →
              isPre q ((searchSlice r i dir).drop j) = false)) := by
  have hguard : ¬ i > r.len := Nat.not_lt.mpr hi
  cases dir with
  | Forward =>
    set sub := searchSlice r i SearchDirection.Forward with hsub
    have hfind : r.find q i SearchDirection.Forward =
        (match (findSub q sub).map (byteIdx sub) with
         | some b =>
           (match (clusterByteStarts sub).findIdx? (fun o => o = b) with
            | some g => some (i + g)
            | none => none)
         | none => none) := by
      unfold Row.find
      rw [if_neg hguard]
      rfl
    have hk_le : ∀ k, findSub q sub = some k → k ≤ sub.length :=
      fun k hk => findSub_le q sub k hk
    refine ⟨?_, ?_, ?_, ?_⟩
    · intro hnone
      rw [hfind]
      rw [if_pos rfl] at hnone
      rw [hnone]
      rfl
    · intro k g hk hg hcp
      rw [if_pos rfl] at hk
      rw [hfind, hk]
      show (match (clusterByteStarts sub).findIdx? (fun o => o = byteIdx sub k)
        with
        | some g => some (i + g)
        | none => none) = some (i + g)
      have hget := clusterByteStarts_get? sub g hg
      rw [hcp] at hget
      rw [findIdx?_pairwise_eq_some _ _ _ (clusterByteStarts_pairwise sub) hget]
    · intro k hk hno
      rw [if_pos rfl] at hk
      rw [hfind, hk]
      show (match (clusterByteStarts sub).findIdx? (fun o => o = byteIdx sub k)
        with
        | some g => some (i + g)
        | none => none) = none
      have hnmem : byteIdx sub k ∉ clusterByteStarts sub := by
        rw [mem_clusterByteStarts]
        rintro ⟨g, hg, hb⟩
        exact hno g hg (byteIdx_inj sub _ _ (cpos_le_length sub g)
          (hk_le k hk) hb)
      rw [findIdx?_eq_none_of_not_mem _ _ hnmem]
    · intro k hk
      rw [if_pos rfl] at hk
      obtain ⟨h1, h2⟩ := findSub_some q sub k hk
      exact ⟨h1, fun _ => h2, fun hcon => absurd hcon (by decide)⟩
  | Backward =>
    set sub := searchSlice r i SearchDirection.Backward with hsub
    have hfind : r.find q i SearchDirection.Backward =
        (match (rfindSub q sub).map (byteIdx sub) with
         | some b =>
           (match (clusterByteStarts sub).findIdx? (fun o => o = b) with
            | some g => some (0 + g)
            | none => none)
         | none => none) := by
      unfold Row.find
      rw [if_neg hguard]
      rfl
    have hk_le : ∀ k, rfindSub q sub = some k → k ≤ sub.length :=
      fun k hk => rfindSub_le q sub k hk
    refine ⟨?_, ?_, ?_, ?_⟩
    · intro hnone
      rw [hfind]
      rw [if_neg (by intro hcon; cases hcon)] at hnone
      rw [hnone]
      rfl
    · intro k g hk hg hcp
      rw [if_neg (by intro hcon; cases hcon)] at hk
      rw [hfind, hk]
      show (match (clusterByteStarts sub).findIdx? (fun o => o = byteIdx sub k)
        with
        | some g => some (0 + g)
        | none => none) = some (0 + g)
      have hget := clusterByteStarts_get? sub g hg
      rw [hcp] at hget
      rw [findIdx?_pairwise_eq_some _ _ _ (clusterByteStarts_pairwise sub) hget]
    · intro k hk hno
      rw [if_neg (by intro hcon; cases hcon)] at hk
      rw [hfind, hk]
      show (match (clusterByteStarts sub).findIdx? (fun o => o = byteIdx sub k)
        with
        | some g => some (0 + g)
        | none => none) = none
      have hnmem : byteIdx sub k ∉ clusterByteStarts sub := by
        rw [mem_clusterByteStarts]
        rintro ⟨g, hg, hb⟩
        exact hno g hg (byteIdx_inj sub _ _ (cpos_le_length sub g)
          (hk_le k hk) hb)
      rw [findIdx?_eq_none_of_not_mem _ _ hnmem]
    · intro k hk
      rw [if_neg (by intro hcon; cases hcon)] at hk
      obtain ⟨h1, h2⟩ := rfindSub_some q sub k hk
      exact ⟨h1, fun hcon => absurd hcon (by decide), fun _ => h2⟩

/-- Witness for C10: on the row `"e" + U+0301` the query consisting of
the bare combining mark occurs byte-wise at offset 1, mid-cluster, so
`find` answers `none`. -/
theorem row_find_boundary_alignment_witness :
    (Row.fromStr ('e' :: Char.ofNat 769 :: [])).find (Char.ofNat 769 :: [])
      0 SearchDirection.Forward = none :=
  (row_find_boundary_alignment (Row.fromStr ('e' :: Char.ofNat 769 :: []))
      (Char.ofNat 769 :: []) 0 SearchDirection.Forward (by decide)).2.2.1 1
    (by decide)
    (by
      intro g hg
      have hcount : gcount (searchSlice
          (Row.fromStr ('e' :: Char.ofNat 769 :: []))
          0 SearchDirection.Forward) = 1 := by decide
      rw [hcount] at hg
      interval_cases g
      decide)

theorem isPre_length_le (q t : Str) (h : isPre q t = true) :
    q.length ≤ t.length := by
  induction q generalizing t with
  | nil => simp
  | cons a as ih =>
    cases t with
    | nil => cases h
    | cons b bs =>
      simp only [isPre, Bool.and_eq_true] at h
      have := ih bs h.2
      simp only [List.length_cons]
      omega

theorem isPre_take_iff (q t : Str) (j : Nat) :
    isPre q (t.take j) = true ↔ isPre q t = true ∧ q.length ≤ j := by
  induction q generalizing t j with
  | nil => simp [isPre]
  | cons a as ih =>
    cases t with
    | nil =>
      simp only [List.take_nil]
      constructor
      · intro h; cases h
      · rintro ⟨h, _⟩; cases h
    | cons b bs =>
      cases j with
      | zero =>
        simp only [List.take_zero, List.length_cons]
        constructor
        · intro h; cases h
        · rintro ⟨_, h2⟩; omega
      | succ j =>
        simp only [List.take_succ_cons, isPre, Bool.and_eq_true, ih,
          List.length_cons]
        constructor
        · rintro ⟨h1, h2, h3⟩; exact ⟨⟨h1, h2⟩, by omega⟩
        · rintro ⟨⟨h1, h2⟩, h3⟩; exact ⟨h1, h2, by omega⟩

theorem cpos_mono (s : Str) (a b : Nat) (hab : a ≤ b) :
    cpos s a ≤ cpos s b := by
  unfold cpos
  have h1 : (graphemes s).take a = ((graphemes s).take b).take a := by
    rw [List.take_take, Nat.min_eq_left hab]
  rw [h1]
  have h2 := congrArg List.length
    (take_flatten_append_drop_flatten a (((graphemes s).take b).flatten))
  rw [List.length_append, graphemes_take_flatten] at h2
  omega

theorem cpos_ge_count (s : Str) (g : Nat) (hg : gcount s ≤ g) :
    cpos s g = s.length := by
  unfold cpos
  rw [List.take_of_length_le hg, flatten_graphemes]

/-- A match of `q` at grapheme column `g` of a string: `q` occurs as a
scalar substring starting at the scalar position where cluster `g`
starts. -/
def rowMatch (q s : Str) (g : Nat) : Prop := isPre q (s.drop (cpos s g)) = true

theorem rowMatch_lt_gcount (qc : Char) (q' s : Str) (g : Nat)
    (h : rowMatch (qc :: q') s g) : g < gcount s := by
  by_contra hge
  have hc : cpos s g = s.length := cpos_ge_count s g (by omega)
  unfold rowMatch at h
  rw [hc, List.drop_length] at h
  cases h

theorem cpos_cons_break2 (a : Char) (s' : Str)
    (hbr : graphemes (a :: s') = [a] :: graphemes s') (g : Nat) :
    cpos (a :: s') (g + 1) = 1 + cpos s' g := by
  unfold cpos
  rw [hbr, List.take_succ_cons, List.flatten_cons]
  simp
  omega

theorem cpos_cons_join2 (a b : Char) (t : Str)
    (hj : joins a b = true) (g : Nat) (hg1 : 1 ≤ g) :
    cpos (a :: b :: t) g = 1 + cpos (b :: t) g := by
  obtain ⟨g0, gs, hg⟩ := graphemes_cons_ex b t
  have hcc := graphemes_cons_cons a b t (b :: g0) gs hg
  rw [if_pos hj] at hcc
  obtain ⟨g', rfl⟩ : ∃ g', g = g' + 1 := ⟨g - 1, by omega⟩
  unfold cpos
  rw [hcc, hg, List.take_succ_cons, List.take_succ_cons, List.flatten_cons,
    List.flatten_cons]
  simp
  omega

/-- Every occurrence of a query that begins with a non-Extend character,
in a string containing no LF, starts exactly at a grapheme cluster
boundary. -/
theorem occ_cluster_start (qc : Char) (q' : Str) (hqc : isExtend qc = false) :
    ∀ (k : Nat) (s : Str), '\n' ∉ s →
      isPre (qc :: q') (s.drop k) = true →
      ∃ g, g < gcount s ∧ cpos s g = k := by
  intro k
  induction k with
  | zero =>
    intro s hnl hocc
    rw [List.drop_zero] at hocc
    cases s with
    | nil => cases hocc
    | cons a t =>
      refine ⟨0, ?_, cpos_zero _⟩
      have : graphemes (a :: t) ≠ [] := by
        intro h
        have h2 := (graphemes_eq_nil_iff (a :: t)).mp h
        cases h2
      unfold gcount
      exact List.length_pos.mpr this
  | succ k ih =>
    intro s hnl hocc
    cases s with
    | nil =>
      rw [List.drop_nil] at hocc
      cases hocc
    | cons a s' =>
      rw [List.drop_succ_cons] at hocc
      cases s' with
      | nil =>
        rw [List.drop_nil] at hocc
        cases hocc
      | cons b t =>
        have hnl' : '\n' ∉ b :: t := fun hm => hnl (List.mem_cons_of_mem a hm)
        obtain ⟨g', hg', hcp'⟩ := ih (b :: t) hnl' hocc
        by_cases hj : joins a b
        · rcases Nat.eq_zero_or_pos g' with h0 | hpos
          · exfalso
            subst h0
            rw [cpos_zero] at hcp'
            subst hcp'
            rw [List.drop_zero] at hocc
            have hqb : qc = b := by
              cases hisp : isPre (qc :: q') (b :: t)
              · rw [hisp] at hocc; cases hocc
              · simp only [isPre, Bool.and_eq_true, decide_eq_true_eq] at hisp
                exact hisp.1
            unfold joins at hj
            simp only [Bool.or_eq_true, Bool.and_eq_true, decide_eq_true_eq,
              Bool.not_eq_true'] at hj
            rcases hj with ⟨_, hb⟩ | ⟨hext, _⟩
            · exact hnl (hb ▸ List.mem_cons_of_mem a (List.mem_cons_self b t))
            · rw [← hqb] at hext
              rw [hqc] at hext
              cases hext
          · refine ⟨g', ?_, ?_⟩
            · have := gcount_cons_cons a b t
              rw [if_pos hj] at this
              omega
            · rw [cpos_cons_join2 a b t hj g' hpos, hcp']
              omega
        · have hbr : graphemes (a :: b :: t) = [a] :: graphemes (b :: t) :=
            graphemes_cons_break a (b :: t)
              (Or.inr (by
                simp only [List.headD_cons]
                cases h : joins a b
                · rfl
                · exact absurd h hj))
          refine ⟨g' + 1, ?_, ?_⟩
          · have := gcount_cons_cons a b t
            rw [if_neg hj] at this
            omega
          · rw [cpos_cons_break2 a (b :: t) hbr g', hcp']
            omega

theorem searchSlice_fw (r : Row) (i : Nat) (hr : r.len = gcount r.string) :
    searchSlice r i SearchDirection.Forward =
      ((graphemes r.string).drop i).flatten := by
  show (((graphemes r.string).drop i).take (r.len - i)).flatten = _
  rw [List.take_of_length_le (by rw [List.length_drop, hr]; rfl)]

theorem searchSlice_bw (r : Row) (i : Nat) :
    searchSlice r i SearchDirection.Backward =
      ((graphemes r.string).take i).flatten := by
  show (((graphemes r.string).drop 0).take (i - 0)).flatten = _
  rw [List.drop_zero, Nat.sub_zero]

theorem cpos_add (s : Str) (i g : Nat) :
    cpos s (i + g) = cpos s i + cpos ((graphemes s).drop i).flatten g := by
  conv_lhs => unfold cpos
  rw [List.take_add, List.flatten_append, List.length_append]
  congr 1
  unfold cpos
  rw [graphemes_drop_flatten]

theorem cpos_take_eq (s : Str) (i g : Nat) (hgi : g ≤ i) :
    cpos ((graphemes s).take i).flatten g = cpos s g := by
  unfold cpos
  rw [graphemes_take_flatten, List.take_take, Nat.min_eq_left hgi]

theorem drop_cpos_add (s : Str) (i g : Nat) :
    s.drop (cpos s (i + g)) =
      (((graphemes s).drop i).flatten).drop
        (cpos ((graphemes s).drop i).flatten g) := by
  rw [cpos_add, drop_flatten_eq_drop, List.drop_drop, Nat.add_comm]

/-- `Row::find` forward, on a newline-free row with a valid cache and a
query starting a fresh cluster: it returns exactly the leftmost grapheme
match at or after the starting column, and`none` only when there is no
such match. -/
theorem row_find_forward (r : Row) (qc : Char) (q' : Str) (i : Nat)
    (hr : r.len = gcount r.string) (hnl : '\n' ∉ r.string)
    (hqc : isExtend qc = false) (hi : i ≤ r.len) :
    (∀ m, r.find (qc :: q') i SearchDirection.Forward = some m →
      rowMatch (qc :: q') r.string m ∧ i ≤ m ∧
        ∀ g, rowMatch (qc :: q') r.string g → i ≤ g → m ≤ g)
    ∧ (∀ g, rowMatch (qc :: q') r.string g → i ≤ g →
        r.find (qc :: q') i SearchDirection.Forward ≠ none) := by
  have hB := row_find_boundary_alignment r (qc :: q') i SearchDirection.Forward hi
  set sub := searchSlice r i SearchDirection.Forward with hsubdef
  have hsub1 : sub = ((graphemes r.string).drop i).flatten := searchSlice_fw r i hr
  have hsub2 : sub = r.string.drop (cpos r.string i) := by
    rw [hsub1, drop_flatten_eq_drop]
  have hnlsub : '\n' ∉ sub := by
    rw [hsub2]
    exact fun hm => hnl (List.mem_of_mem_drop hm)
  have hdropeq : ∀ g : Nat,
      r.string.drop (cpos r.string (i + g)) = sub.drop (cpos sub g) := by
    intro g
    rw [hsub1]
    exact drop_cpos_add r.string i g
  have hmatch_iff : ∀ g : Nat,
      rowMatch (qc :: q') r.string (i + g) ↔
        isPre (qc :: q') (sub.drop (cpos sub g)) = true := by
    intro g
    unfold rowMatch
    rw [hdropeq g]
  constructor
  · intro m hm
    cases hfs : findSub (qc :: q') sub with
    | none =>
      have hnone := hB.1 hfs
      rw [hm] at hnone
      cases hnone
    | some k =>
      obtain ⟨hocc, hmin⟩ := findSub_some (qc :: q') sub k hfs
      obtain ⟨g, hg, hcp⟩ := occ_cluster_start qc q' hqc k sub hnlsub hocc
      have hfind := hB.2.1 k g hfs hg hcp
      rw [hm] at hfind
      have hmg : m = i + g := by
        injection hfind with h
      subst hmg
      refine ⟨?_, Nat.le_add_right i g, ?_⟩
      · rw [hmatch_iff g, hcp]
        exact hocc
      · intro g₂ hg₂m hg₂i
        obtain ⟨g₂', rfl⟩ : ∃ g₂', g₂ = i + g₂' := ⟨g₂ - i, by omega⟩
        rw [hmatch_iff g₂'] at hg₂m
        have hnotlt : ¬ cpos sub g₂' < k := by
          intro hlt
          rw [hmin (cpos sub g₂') hlt] at hg₂m
          cases hg₂m
        have hkle : cpos sub g ≤ cpos sub g₂' := by
          rw [hcp]; omega
        have : g ≤ g₂' := by
          by_contra hgt
          have := cpos_strictMono sub g₂' g (by omega) (by omega)
          omega
        omega
  · intro g hg hig
    obtain ⟨g', rfl⟩ : ∃ g', g = i + g' := ⟨g - i, by omega⟩
    rw [hmatch_iff g'] at hg
    cases hfs : findSub (qc :: q') sub with
    | none =>
      have := findSub_none (qc :: q') sub hfs (cpos sub g')
      rw [this] at hg
      cases hg
    | some k =>
      obtain ⟨hocc, _⟩ := findSub_some (qc :: q') sub k hfs
      obtain ⟨g₀, hg₀, hcp₀⟩ := occ_cluster_start qc q' hqc k sub hnlsub hocc
      have hfind := hB.2.1 k g₀ hfs hg₀ hcp₀
      rw [hfind]
      intro hcon
      cases hcon

/-- `Row::find` backward, on a newline-free row with a valid cache and a
query starting a fresh cluster: it returns exactly the rightmost grapheme
match whose occurrence lies entirely within the first `at` clusters, and
`none` only when there is no such match. -/
theorem row_find_backward (r : Row) (qc : Char) (q' : Str) (i : Nat)
    (hr : r.len = gcount r.string) (hnl : '\n' ∉ r.string)
    (hqc : isExtend qc = false) (hi : i ≤ r.len) :
    (∀ m, r.find (qc :: q') i SearchDirection.Backward = some m →
      (rowMatch (qc :: q') r.string m ∧
        cpos r.string m + (qc :: q').length ≤ cpos r.string i) ∧
        ∀ g, rowMatch (qc :: q') r.string g →
          cpos r.string g + (qc :: q').length ≤ cpos r.string i → g ≤ m)
    ∧ (∀ g, rowMatch (qc :: q') r.string g →
        cpos r.string g + (qc :: q').length ≤ cpos r.string i →
        r.find (qc :: q') i SearchDirection.Backward ≠ none) := by
  have hB := row_find_boundary_alignment r (qc :: q') i SearchDirection.Backward hi
  set sub := searchSlice r i SearchDirection.Backward with hsubdef
  have hsub1 : sub = ((graphemes r.string).take i).flatten := searchSlice_bw r i
  have hsub2 : sub = r.string.take (cpos r.string i) := by
    rw [hsub1, take_flatten_eq_take]
  have hnlsub : '\n' ∉ sub := by
    rw [hsub2]
    exact fun hm => hnl (List.mem_of_mem_take hm)
  have hgcsub : gcount sub = min i (gcount r.string) := by
    show (graphemes sub).length = _
    rw [hsub1, graphemes_take_flatten, List.length_take]
    rfl
  have hocc_iff : ∀ k : Nat,
      isPre (qc :: q') (sub.drop k) = true ↔
        isPre (qc :: q') (r.string.drop k) = true ∧
          k + (qc :: q').length ≤ cpos r.string i := by
    intro k
    rw [hsub2, List.drop_take]
    rw [isPre_take_iff]
    constructor
    · rintro ⟨h1, h2⟩
      refine ⟨h1, ?_⟩
      have := isPre_length_le _ _ h1
      simp only [List.length_cons] at h2 ⊢
      omega
    · rintro ⟨h1, h2⟩
      refine ⟨h1, ?_⟩
      simp only [List.length_cons] at h2 ⊢
      omega
  constructor
  · intro m hm
    cases hfs : rfindSub (qc :: q') sub with
    | none =>
      have hnone := hB.1 hfs
      rw [hm] at hnone
      cases hnone
    | some k =>
      obtain ⟨hocc, hmax⟩ := rfindSub_some (qc :: q') sub k hfs
      obtain ⟨g₀, hg₀, hcp₀⟩ := occ_cluster_start qc q' hqc k sub hnlsub hocc
      have hfind := hB.2.1 k g₀ hfs hg₀ hcp₀
      rw [hm] at hfind
      have hmg : m = 0 + g₀ := by
        injection hfind with h
      rw [Nat.zero_add] at hmg
      subst hmg
      have hg₀i : m ≤ i := by omega
      have hcpeq : cpos sub m = cpos r.string m := by
        rw [hsub1]
        exact cpos_take_eq r.string i m hg₀i
      have hks : k = cpos r.string m := by rw [← hcp₀, hcpeq]
      obtain ⟨hoccs, hcont⟩ := (hocc_iff k).mp hocc
      constructor
      · constructor
        · unfold rowMatch
          rw [← hks]
          exact hoccs
        · rw [← hks]
          exact hcont
      · intro g hgm hgcont
        have hgn : g < gcount r.string := rowMatch_lt_gcount qc q' r.string g hgm
        have hgi : g < i := by
          have hlt : cpos r.string g < cpos r.string i := by
            simp only [List.length_cons] at hgcont
            omega
          by_contra hge
          have := cpos_mono r.string i g (by omega)
          omega
        have hcpg : cpos sub g = cpos r.string g := by
          rw [hsub1]
          exact cpos_take_eq r.string i g (by omega)
        have hoccsub : isPre (qc :: q') (sub.drop (cpos sub g)) = true := by
          rw [hcpg]
          exact (hocc_iff (cpos r.string g)).mpr ⟨hgm, hgcont⟩
        have hle : cpos sub g ≤ k := by
          by_contra hlt
          have := hmax (cpos sub g) (by omega) (cpos_le_length sub g)
          rw [this] at hoccsub
          cases hoccsub
        have : g ≤ m := by
          by_contra hgt
          have hgsub : g < gcount sub := by omega
          have := cpos_strictMono sub m g (by omega) (by omega)
          rw [hcp₀] at this
          omega
        exact this
  · intro g hgm hgcont
    have hgn : g < gcount r.string := rowMatch_lt_gcount qc q' r.string g hgm
    have hgi : g < i := by
      have hlt : cpos r.string g < cpos r.string i := by
        simp only [List.length_cons] at hgcont
        omega
      by_contra hge
      have := cpos_mono r.string i g (by omega)
      omega
    have hcpg : cpos sub g = cpos r.string g := by
      rw [hsub1]
      exact cpos_take_eq r.string i g (by omega)
    have hoccsub : isPre (qc :: q') (sub.drop (cpos sub g)) = true := by
      rw [hcpg]
      exact (hocc_iff (cpos r.string g)).mpr ⟨hgm, hgcont⟩
    cases hfs : rfindSub (qc :: q') sub with
    | none =>
      have := rfindSub_none (qc :: q') sub hfs (cpos sub g)
      rw [this] at hoccsub
      cases hoccsub
    | some k =>
      obtain ⟨hocc, _⟩ := rfindSub_some (qc :: q') sub k hfs
      obtain ⟨g₀, hg₀, hcp₀⟩ := occ_cluster_start qc q' hqc k sub hnlsub hocc
      have hfind := hB.2.1 k g₀ hfs hg₀ hcp₀
      rw [hfind]
      intro hcon
      cases hcon

/-- Lexicographic (row, column) order on positions, rows first. -/
def lexLe (a b : Position) : Prop := a.y < b.y ∨ (a.y = b.y ∧ a.x ≤ b.x)

/-- A match of the query somewhere in the document, in grapheme
coordinates. -/
def docMatch (d : Document) (q : Str) (m : Position) : Prop :=
  ∃ row, d.rows.get? m.y = some row ∧ rowMatch q row.string m.x

/-- Eligibility for the backward search from `p`: the match lies on an
earlier row, or on row `p.y` with its occurrence contained entirely
within the first `p.x` grapheme clusters. -/
def bwdElig (d : Document) (q : Str) (p m : Position) : Prop :=
  docMatch d q m ∧ (m.y < p.y ∨ (m.y = p.y ∧
    ∃ row, d.rows.get? m.y = some row ∧
      cpos row.string m.x + q.length ≤ cpos row.string p.x))

theorem findLoop_succ (d : Document) (q : Str) (dir : SearchDirection)
    (n : Nat) (pos : Position) (row : Row)
    (hrow : d.rows.get? pos.y = some row) :
    Document.findLoop d q dir (n + 1) pos =
      match row.find q pos.x dir with
      | some x => some ⟨x, pos.y⟩
      | none =>
        if dir = SearchDirection.Forward then
          Document.findLoop d q dir n ⟨0, pos.y + 1⟩
        else
          Document.findLoop d q dir n
            ⟨(d.rows.getD (pos.y - 1) Row.default).len, pos.y - 1⟩ := by
  conv_lhs => unfold Document.findLoop
  rw [hrow]

theorem findLoop_fw (d : Document) (qc : Char) (q' : Str)
    (hqc : isExtend qc = false)
    (hnl : ∀ row ∈ d.rows, '\n' ∉ row.string)
    (hwf : ∀ row ∈ d.rows, row.len = gcount row.string) :
    ∀ (fuel : Nat) (pos : Position),
      fuel = d.rows.length - pos.y →
      (∀ row, d.rows.get? pos.y = some row → pos.x ≤ row.len) →
      ((∀ m, Document.findLoop d (qc :: q') SearchDirection.Forward fuel pos
            = some m →
          docMatch d (qc :: q') m ∧ lexLe pos m ∧
            ∀ m', docMatch d (qc :: q') m' → lexLe pos m' → lexLe m m')
      ∧ (∀ m', docMatch d (qc :: q') m' → lexLe pos m' →
          Document.findLoop d (qc :: q') SearchDirection.Forward fuel pos
            ≠ none)) := by
  intro fuel
  induction fuel with
  | zero =>
    intro pos hfuel _
    constructor
    · intro m hm
      cases hm
    · intro m' hdm hle hcon
      obtain ⟨row', hrow', _⟩ := hdm
      have hm'lt : m'.y < d.rows.length := (List.get?_eq_some.mp hrow').1
      rcases hle with hlt | ⟨heq, _⟩ <;> omega
  | succ n ih =>
    intro pos hfuel hx
    have hylt : pos.y < d.rows.length := by omega
    obtain ⟨row, hrow⟩ : ∃ row, d.rows.get? pos.y = some row := by
      rw [List.get?_eq_get hylt]
      exact ⟨_, rfl⟩
    have hmem : row ∈ d.rows := List.get?_mem hrow
    have hrlem := row_find_forward row qc q' pos.x (hwf row hmem)
      (hnl row hmem) hqc (hx row hrow)
    cases hrf : row.find (qc :: q') pos.x SearchDirection.Forward with
    | some x =>
      have hstep0 := findLoop_succ d (qc :: q') SearchDirection.Forward n pos
        row hrow
      rw [hrf] at hstep0
      have hstep : Document.findLoop d (qc :: q') SearchDirection.Forward
          (n + 1) pos = some ⟨x, pos.y⟩ := hstep0
      obtain ⟨hxm, hxle, hxmin⟩ := hrlem.1 x hrf
      constructor
      · intro m hm
        rw [hstep] at hm
        have hmeq : m = ⟨x, pos.y⟩ := by
          injection hm with h
          exact h.symm
        subst hmeq
        refine ⟨⟨row, hrow, hxm⟩, Or.inr ⟨rfl, hxle⟩, ?_⟩
        intro m' hdm' hle'
        obtain ⟨row', hrow', hm'⟩ := hdm'
        rcases hle' with hlt | ⟨heq, hxle'⟩
        · exact Or.inl hlt
        · have hroweq : row' = row := by
            rw [← heq] at hrow'
            rw [hrow] at hrow'
            injection hrow' with h2
            exact h2.symm
          subst hroweq
          exact Or.inr ⟨heq, hxmin m'.x hm' hxle'⟩
      · intro m' _ _
        rw [hstep]
        intro hcon
        cases hcon
    | none =>
      have hstep0 := findLoop_succ d (qc :: q') SearchDirection.Forward n pos
        row hrow
      rw [hrf] at hstep0
      have hstep : Document.findLoop d (qc :: q') SearchDirection.Forward
          (n + 1) pos =
          Document.findLoop d (qc :: q') SearchDirection.Forward n
            ⟨0, pos.y + 1⟩ := hstep0
      have hfail : ∀ g, rowMatch (qc :: q') row.string g → pos.x ≤ g →
          False := fun g hg hge => hrlem.2 g hg hge hrf
      obtain ⟨ih1, ih2⟩ := ih ⟨0, pos.y + 1⟩ (by simp; omega)
        (fun _ _ => Nat.zero_le _)
      have hfilter : ∀ m', docMatch d (qc :: q') m' → lexLe pos m' →
          lexLe ⟨0, pos.y + 1⟩ m' := by
        intro m' hdm' hle'
        rcases hle' with hlt | ⟨heq, hxle'⟩
        · by_cases hcase : pos.y + 1 = m'.y
          · exact Or.inr ⟨hcase, Nat.zero_le _⟩
          · refine Or.inl ?_
            show pos.y + 1 < m'.y
            omega
        · exfalso
          obtain ⟨row', hrow', hm'⟩ := hdm'
          have hroweq : row' = row := by
            rw [← heq] at hrow'
            rw [hrow] at hrow'
            injection hrow' with h2
            exact h2.symm
          subst hroweq
          exact hfail m'.x hm' hxle'
      constructor
      · intro m hm
        rw [hstep] at hm
        obtain ⟨hdm, hlem, hminm⟩ := ih1 m hm
        refine ⟨hdm, ?_, ?_⟩
        · rcases hlem with hlt | ⟨heq, _⟩
          · exact Or.inl (by simp at hlt ⊢; omega)
          · exact Or.inl (by simp at heq ⊢; omega)
        · intro m' hdm' hle'
          exact hminm m' hdm' (hfilter m' hdm' hle')
      · intro m' hdm' hle'
        rw [hstep]
        exact ih2 m' hdm' (hfilter m' hdm' hle')

theorem getD_of_get? {α : Type} (l : List α) (n : Nat) (a d : α)
    (h : l.get? n = some a) : l.getD n d = a := by
  induction l generalizing n with
  | nil => cases h
  | cons x t ih =>
    cases n with
    | zero =>
      simp only [List.get?_cons_zero, Option.some.injEq] at h
      simp [List.getD, h]
    | succ n =>
      simp only [List.get?_cons_succ] at h
      simpa [List.getD] using ih n h

theorem findLoop_bw (d : Document) (qc : Char) (q' : Str)
    (hqc : isExtend qc = false)
    (hnl : ∀ row ∈ d.rows, '\n' ∉ row.string)
    (hwf : ∀ row ∈ d.rows, row.len = gcount row.string) :
    ∀ (fuel : Nat) (pos : Position),
      fuel = pos.y + 1 →
      pos.y < d.rows.length →
      (∀ row, d.rows.get? pos.y = some row → pos.x ≤ row.len) →
      ((∀ m, Document.findLoop d (qc :: q') SearchDirection.Backward fuel pos
            = some m →
          bwdElig d (qc :: q') pos m ∧
            ∀ m', bwdElig d (qc :: q') pos m' → lexLe m' m)
      ∧ (∀ m', bwdElig d (qc :: q') pos m' →
          Document.findLoop d (qc :: q') SearchDirection.Backward fuel pos
            ≠ none)) := by
  intro fuel
  induction fuel with
  | zero =>
    intro pos hfuel
    exact absurd hfuel (by omega)
  | succ n ih =>
    intro pos hfuel hylt hx
    obtain ⟨row, hrow⟩ : ∃ row, d.rows.get? pos.y = some row := by
      rw [List.get?_eq_get hylt]
      exact ⟨_, rfl⟩
    have hmem : row ∈ d.rows := List.get?_mem hrow
    have hrlem := row_find_backward row qc q' pos.x (hwf row hmem)
      (hnl row hmem) hqc (hx row hrow)
    cases hrf : row.find (qc :: q') pos.x SearchDirection.Backward with
    | some x =>
      have hstep0 := findLoop_succ d (qc :: q') SearchDirection.Backward n pos
        row hrow
      rw [hrf] at hstep0
      have hstep : Document.findLoop d (qc :: q') SearchDirection.Backward
          (n + 1) pos = some ⟨x, pos.y⟩ := hstep0
      obtain ⟨⟨hxm, hxcont⟩, hxmax⟩ := hrlem.1 x hrf
      constructor
      · intro m hm
        rw [hstep] at hm
        have hmeq : m = ⟨x, pos.y⟩ := by
          injection hm with h
          exact h.symm
        subst hmeq
        refine ⟨⟨⟨row, hrow, hxm⟩, Or.inr ⟨rfl, ⟨row, hrow, hxcont⟩⟩⟩, ?_⟩
        intro m' hel'
        obtain ⟨⟨row', hrow', hm'⟩, hor⟩ := hel'
        rcases hor with hlt | ⟨heq, row'', hrow'', hcont''⟩
        · exact Or.inl hlt
        · have hroweq : row' = row := by
            rw [heq] at hrow'
            rw [hrow] at hrow'
            injection hrow' with h2
            exact h2.symm
          have hroweq2 : row'' = row := by
            rw [heq] at hrow''
            rw [hrow] at hrow''
            injection hrow'' with h2
            exact h2.symm
          subst hroweq
          subst hroweq2
          exact Or.inr ⟨heq, hxmax m'.x hm' hcont''⟩
      · intro m' _
        rw [hstep]
        intro hcon
        cases hcon
    | none =>
      have hfail : ∀ g, rowMatch (qc :: q') row.string g →
          cpos row.string g + (qc :: q').length ≤ cpos row.string pos.x →
          False := fun g h1 h2 => hrlem.2 g h1 h2 hrf
      have hstep0 := findLoop_succ d (qc :: q') SearchDirection.Backward n pos
        row hrow
      rw [hrf] at hstep0
      have hstep : Document.findLoop d (qc :: q') SearchDirection.Backward
          (n + 1) pos =
          Document.findLoop d (qc :: q') SearchDirection.Backward n
            ⟨(d.rows.getD (pos.y - 1) Row.default).len, pos.y - 1⟩ := hstep0
      by_cases h0 : pos.y = 0
      · constructor
        · intro m hm
          rw [hstep] at hm
          have hn0 : n = 0 := by omega
          rw [hn0] at hm
          have hm' : (none : Option Position) = some m := hm
          cases hm'
        · intro m' hel'
          obtain ⟨⟨row', hrow', hm'⟩, hor⟩ := hel'
          intro _
          rcases hor with hlt | ⟨heq, row'', hrow'', hcont''⟩
          · omega
          · have hroweq : row' = row := by
              rw [heq] at hrow'
              rw [hrow] at hrow'
              injection hrow' with h2
              exact h2.symm
            have hroweq2 : row'' = row := by
              rw [heq] at hrow''
              rw [hrow] at hrow''
              injection hrow'' with h2
              exact h2.symm
            subst hroweq
            subst hroweq2
            exact hfail m'.x hm' hcont''
      · have hpy : pos.y - 1 < d.rows.length := by omega
        obtain ⟨row', hrow'⟩ : ∃ row', d.rows.get? (pos.y - 1) = some row' := by
          rw [List.get?_eq_get hpy]
          exact ⟨_, rfl⟩
        have hmem' : row' ∈ d.rows := List.get?_mem hrow'
        have hgetD : d.rows.getD (pos.y - 1) Row.default = row' :=
          getD_of_get? d.rows (pos.y - 1) row' Row.default hrow'
        rw [hgetD] at hstep
        obtain ⟨ih1, ih2⟩ := ih ⟨row'.len, pos.y - 1⟩ (by simp; omega)
          (by simpa using hpy)
          (by
            intro r0 hr0
            show row'.len ≤ r0.len
            have : r0 = row' := by
              simp only at hr0
              rw [hrow'] at hr0
              injection hr0 with h2
              exact h2.symm
            rw [this])
        have hfilter : ∀ m', bwdElig d (qc :: q') pos m' →
            bwdElig d (qc :: q') ⟨row'.len, pos.y - 1⟩ m' := by
          intro m' hel'
          obtain ⟨hdm', hor⟩ := hel'
          refine ⟨hdm', ?_⟩
          rcases hor with hlt | ⟨heq, row'', hrow'', hcont''⟩
          · by_cases hcase : m'.y = pos.y - 1
            · refine Or.inr ⟨hcase, ?_⟩
              obtain ⟨rowm, hrowm, hmm⟩ := hdm'
              have hrowmeq : rowm = row' := by
                rw [hcase] at hrowm
                rw [hrow'] at hrowm
                injection hrowm with h2
                exact h2.symm
              rw [hrowmeq] at hmm
              refine ⟨row', by rw [hcase]; exact hrow', ?_⟩
              show cpos row'.string m'.x + (qc :: q').length ≤
                cpos row'.string row'.len
              have hcend : cpos row'.string row'.len = row'.string.length :=
                cpos_ge_count row'.string row'.len
                  (by rw [hwf row' hmem'])
              have hqlen := isPre_length_le _ _ hmm
              rw [List.length_drop] at hqlen
              have := cpos_le_length row'.string m'.x
              rw [hcend]
              omega
            · refine Or.inl ?_
              show m'.y < pos.y - 1
              omega
          · exfalso
            obtain ⟨rowm, hrowm, hmm⟩ := hdm'
            have hrowmeq : rowm = row := by
              rw [heq] at hrowm
              rw [hrow] at hrowm
              injection hrowm with h2
              exact h2.symm
            have hroweq2 : row'' = row := by
              rw [heq] at hrow''
              rw [hrow] at hrow''
              injection hrow'' with h2
              exact h2.symm
            rw [hrowmeq] at hmm
            rw [hroweq2] at hcont''
            exact hfail m'.x hmm hcont''
        constructor
        · intro m hm
          rw [hstep] at hm
          obtain ⟨⟨hdm, hor⟩, hmax⟩ := ih1 m hm
          refine ⟨⟨hdm, ?_⟩, ?_⟩
          · refine Or.inl ?_
            rcases hor with hlt | ⟨heq, _⟩
            · simp only at hlt
              omega
            · simp only at heq
              omega
          · intro m' hel'
            exact hmax m' (hfilter m' hel')
        · intro m' hel'
          rw [hstep]
          exact ih2 m' (hfilter m' hel')

/-- C6 (amended): for every document whose rows carry a valid length
cache and contain no line-feed character (as every document built through
the API does), every query beginning with a cluster-starting (non-Extend)
character, and every in-range start position `p`: `find` with an absent
query returns none; Forward `find` returns exactly the leftmost match at
or after `p` in (row, column) order, scanning later rows from column 0;
Backward `find` returns exactly the rightmost match whose occurrence lies
entirely before column `p.x` of row `p.y` (or anywhere on an earlier
row), with no wrap-around past the document boundary in either
direction. -/
theorem document_find_correct (d : Document) (qc : Char) (q' : Str)
    (p : Position)
    (hqc : isExtend qc = false)
    (hnl : ∀ row ∈ d.rows, '\n' ∉ row.string)
    (hwf : ∀ row ∈ d.rows, row.len = gcount row.string)
    (hy : p.y < d.rows.length)
    (hx : ∀ row, d.rows.get? p.y = some row → p.x ≤ row.len) :
    ((∀ m, ¬ docMatch d (qc :: q') m) →
      d.find (qc :: q') p SearchDirection.Forward = none ∧
        d.find (qc :: q') p SearchDirection.Backward = none)
    ∧ (∀ m, d.find (qc :: q') p SearchDirection.Forward = some m →
        docMatch d (qc :: q') m ∧ lexLe p m ∧
          ∀ m', docMatch d (qc :: q') m' → lexLe p m' → lexLe m m')
    ∧ (∀ m', docMatch d (qc :: q') m' → lexLe p m' →
        d.find (qc :: q') p SearchDirection.Forward ≠ none)
    ∧ (∀ m, d.find (qc :: q') p SearchDirection.Backward = some m →
        bwdElig d (qc :: q') p m ∧
          ∀ m', bwdElig d (qc :: q') p m' → lexLe m' m)
    ∧ (∀ m', bwdElig d (qc :: q') p m' →
        d.find (qc :: q') p SearchDirection.Backward ≠ none) := by
  have hguard : ¬ p.y ≥ d.rows.length := Nat.not_le.mpr hy
  have hstepF : d.find (qc :: q') p SearchDirection.Forward =
      Document.findLoop d (qc :: q') SearchDirection.Forward
        (d.rows.length - p.y) p := by
    unfold Document.find
    rw [if_neg hguard]
    rfl
  have hstepB : d.find (qc :: q') p SearchDirection.Backward =
      Document.findLoop d (qc :: q') SearchDirection.Backward (p.y + 1) p := by
    unfold Document.find
    rw [if_neg hguard]
    rfl
  obtain ⟨hfw1, hfw2⟩ := findLoop_fw d qc q' hqc hnl hwf
    (d.rows.length - p.y) p rfl hx
  obtain ⟨hbw1, hbw2⟩ := findLoop_bw d qc q' hqc hnl hwf (p.y + 1) p rfl hy hx
  refine ⟨?_, ?_, ?_, ?_, ?_⟩
  · intro habsent
    constructor
    · cases hf : d.find (qc :: q') p SearchDirection.Forward with
      | none => rfl
      | some m =>
        rw [hstepF] at hf
        exact absurd (hfw1 m hf).1 (habsent m)
    · cases hf : d.find (qc :: q') p SearchDirection.Backward with
      | none => rfl
      | some m =>
        rw [hstepB] at hf
        exact absurd (hbw1 m hf).1.1 (habsent m)
  · intro m hm
    rw [hstepF] at hm
    exact hfw1 m hm
  · intro m' hdm' hle'
    rw [hstepF]
    exact hfw2 m' hdm' hle'
  · intro m hm
    rw [hstepB] at hm
    exact hbw1 m hm
  · intro m' hel'
    rw [hstepB]
    exact hbw2 m' hel'

/-- C6 (counterexample): on the single row `"abab"` with query `"ab"`,
backward search from column 3 returns column 0, although column 2 is
also a match lying strictly before column 3 and to the right of column
0 — so the claim "returns the rightmost match position strictly before
`p`" fails; the match at 2 merely fails to fit inside the first 3
clusters. -/
theorem find_backward_not_rightmost :
    (Document.mk [Row.fromStr ('a' :: 'b' :: 'a' :: 'b' :: [])] none false
        FileType.default).find ('a' :: 'b' :: []) ⟨3, 0⟩
        SearchDirection.Backward = some ⟨0, 0⟩
    ∧ rowMatch ('a' :: 'b' :: []) ('a' :: 'b' :: 'a' :: 'b' :: []) 2
    ∧ (2 : Nat) < 3 ∧ (0 : Nat) < 2 :=
  ⟨by decide, by unfold rowMatch; decide, by decide, by decide⟩

/-- Witness for the amended C6: the spec scenario rows `["abcabc"]` with
forward search for `"bc"` from the origin, whose result column 1 the
theorem certifies as the leftmost match. -/
theorem document_find_correct_witness :
    docMatch (Document.mk [Row.fromStr
        ('a' :: 'b' :: 'c' :: 'a' :: 'b' :: 'c' :: [])] none false
        FileType.default) ('b' :: 'c' :: []) ⟨1, 0⟩
    ∧ lexLe ⟨0, 0⟩ ⟨1, 0⟩
    ∧ ∀ m', docMatch (Document.mk [Row.fromStr
        ('a' :: 'b' :: 'c' :: 'a' :: 'b' :: 'c' :: [])] none false
        FileType.default) ('b' :: 'c' :: []) m' →
      lexLe ⟨0, 0⟩ m' → lexLe ⟨1, 0⟩ m' :=
  (document_find_correct (Document.mk [Row.fromStr
      ('a' :: 'b' :: 'c' :: 'a' :: 'b' :: 'c' :: [])] none false
      FileType.default) 'b' ('c' :: []) ⟨0, 0⟩ (by decide) (by decide)
    (by decide) (by decide)
    (fun _ _ => Nat.zero_le _)).2.1 ⟨1, 0⟩ (by decide)

end Hecto
